import Mathlib

/-!
Shallow embedding of the pixelscope payload-carving, trailing-data and
bit-plane-extraction core (src/utils/payloadCarving.ts, src/utils/trailingData.ts,
and the bit-plane extractor), together with theorems checking the
specification's claims about it.

Byte buffers are modelled as `List Nat` (a `Uint8Array` holds values `0..255`;
the definitions below read bytes with `List.getD _ _ 0`, matching the source's
bounds-checked accesses).  Every scanning loop of the source is embedded as a
step function driven by a generic fuel-indexed iterator `iter`; the fuel passed
at top level (`buffer length + 1`) always suffices because every loop of the
source advances its offset on each iteration.
-/

namespace Pixelscope

abbrev Bytes := List Nat

/-- Read a byte, with 0 for out-of-range indices (the source always bounds
checks before reading, so the default is never semantically relevant). -/
def getB (bytes : Bytes) (i : Nat) : Nat := bytes.getD i 0

/-! ## Signature constants (payloadCarving.ts lines 47-59) -/

def PNG_SIGNATURE : Bytes := [0x89, 0x50, 0x4e, 0x47, 0x0d, 0x0a, 0x1a, 0x0a]
def GIF87A_SIGNATURE : Bytes := [0x47, 0x49, 0x46, 0x38, 0x37, 0x61]
def GIF89A_SIGNATURE : Bytes := [0x47, 0x49, 0x46, 0x38, 0x39, 0x61]
def TIFF_LE_SIGNATURE : Bytes := [0x49, 0x49, 0x2a, 0x00]
def TIFF_BE_SIGNATURE : Bytes := [0x4d, 0x4d, 0x00, 0x2a]
def RIFF_SIGNATURE : Bytes := [0x52, 0x49, 0x46, 0x46]
def WEBP_SIGNATURE : Bytes := [0x57, 0x45, 0x42, 0x50]
def PDF_SIGNATURE : Bytes := [0x25, 0x50, 0x44, 0x46, 0x2d]
def PDF_EOF_MARKER : Bytes := [0x25, 0x25, 0x45, 0x4f, 0x46]
def ZIP_LOCAL_FILE_SIGNATURE : Bytes := [0x50, 0x4b, 0x03, 0x04]
def ZIP_EOCD_SIGNATURE : Bytes := [0x50, 0x4b, 0x05, 0x06]

/-! ## Byte-level readers (payloadCarving.ts lines 61-117) -/

/-- `matchesAt`: pattern comparison with bounds check. -/
def matchesAt (bytes : Bytes) (offset : Nat) (pat : Bytes) : Bool :=
  decide (offset + pat.length ≤ bytes.length) &&
    (List.range pat.length).all (fun i => getB bytes (offset + i) == getB pat i)

def readUint16LE (bytes : Bytes) (offset : Nat) : Option Nat :=
  if offset + 2 ≤ bytes.length then
    some (getB bytes offset ||| (getB bytes (offset + 1) <<< 8))
  else none

def readUint16BE (bytes : Bytes) (offset : Nat) : Option Nat :=
  if offset + 2 ≤ bytes.length then
    some ((getB bytes offset <<< 8) ||| getB bytes (offset + 1))
  else none

def readUint32LE (bytes : Bytes) (offset : Nat) : Option Nat :=
  if offset + 4 ≤ bytes.length then
    some (getB bytes offset ||| (getB bytes (offset + 1) <<< 8) |||
      (getB bytes (offset + 2) <<< 16) ||| (getB bytes (offset + 3) <<< 24))
  else none

def readUint32BE (bytes : Bytes) (offset : Nat) : Option Nat :=
  if offset + 4 ≤ bytes.length then
    some ((getB bytes offset <<< 24) ||| (getB bytes (offset + 1) <<< 16) |||
      (getB bytes (offset + 2) <<< 8) ||| getB bytes (offset + 3))
  else none

/-! ## Generic scanning loop

Every `while` loop of the detectors keeps a single `offset` cursor and either
continues at a strictly larger offset or terminates with an optional result.
`iter` runs such a loop with explicit fuel. -/

inductive StepRes where
  | next (o : Nat)
  | stop (r : Option Nat)

def iter (step : Nat → StepRes) : Nat → Nat → Option Nat
  | 0, _ => none
  | fuel + 1, off =>
    match step off with
    | .stop r => r
    | .next o => iter step fuel o

/-- Successful runs are fuel-monotone. -/
theorem iter_mono {step : Nat → StepRes} :
    ∀ {f f' off r}, iter step f off = some r → f ≤ f' → iter step f' off = some r := by
  intro f
  induction f with
  | zero => intro f' off r h; simp [iter] at h
  | succ f ih =>
    intro f' off r h hle
    match f', hle with
    | f' + 1, hle =>
      simp only [iter] at h ⊢
      cases hstep : step off with
      | stop r' => rw [hstep] at h; rw [h]
      | next o => rw [hstep] at h; exact ih h (Nat.le_of_succ_le_succ hle)

/-- Any two sufficiently large fuels give the same run, provided that the loop
only continues from offsets below the bound `N` and strictly increases. -/
theorem iter_congr {step : Nat → StepRes} {N : Nat}
    (h : ∀ o o', step o = .next o' → o < N ∧ o < o') :
    ∀ f₁ f₂ off, 0 < f₁ → 0 < f₂ → N - off < f₁ → N - off < f₂ →
      iter step f₁ off = iter step f₂ off := by
  intro f₁
  induction f₁ with
  | zero => intro f₂ off h1; omega
  | succ f₁ ih =>
    intro f₂ off _ h2 hb1 hb2
    match f₂, h2 with
    | f₂ + 1, _ =>
      simp only [iter]
      cases hstep : step off with
      | stop r => rfl
      | next o =>
        obtain ⟨hoN, hoo⟩ := h _ _ hstep
        exact ih f₂ o (by omega) (by omega) (by omega) (by omega)

/-- One unfolding of a loop run at the canonical fuel `N + 1`: a continue step. -/
theorem iter_top_next {step : Nat → StepRes} {N off o' : Nat}
    (h : ∀ o o₂, step o = .next o₂ → o < N ∧ o < o₂)
    (hs : step off = .next o') :
    iter step (N + 1) off = iter step (N + 1) o' := by
  have hlt := h _ _ hs
  simp only [iter, hs]
  exact iter_congr h N (N + 1) o' (by omega) (by omega) (by omega) (by omega)

/-- One unfolding of a loop run at the canonical fuel `N + 1`: a stop step. -/
theorem iter_top_stop {step : Nat → StepRes} {N off : Nat} {r : Option Nat}
    (hs : step off = .stop r) :
    iter step (N + 1) off = r := by
  simp only [iter, hs]

/-- If all continue steps and successful stops move weakly forward, so does
the loop's result. -/
theorem iter_ge {step : Nat → StepRes}
    (hn : ∀ o o', step o = .next o' → o ≤ o')
    (hs : ∀ o r, step o = .stop (some r) → o ≤ r) :
    ∀ {f off r}, iter step f off = some r → off ≤ r := by
  intro f
  induction f with
  | zero => intro off r h; simp [iter] at h
  | succ f ih =>
    intro off r h
    simp only [iter] at h
    cases hstep : step off with
    | stop r' =>
      rw [hstep] at h
      cases h
      exact hs _ _ hstep
    | next o =>
      rw [hstep] at h
      exact Nat.le_trans (hn _ _ hstep) (ih h)

/-! ## PNG end detector (payloadCarving.ts lines 137-168) -/

/-- Whether the 4 bytes at `chunkTypeOffset` spell `IEND`. -/
def isIendAt (bytes : Bytes) (chunkTypeOffset : Nat) : Bool :=
  getB bytes chunkTypeOffset == 0x49 && getB bytes (chunkTypeOffset + 1) == 0x45 &&
    getB bytes (chunkTypeOffset + 2) == 0x4e && getB bytes (chunkTypeOffset + 3) == 0x44

/-- One iteration of the PNG chunk walk. -/
def pngStep (bytes : Bytes) (off : Nat) : StepRes :=
  if off + 12 ≤ bytes.length then
    match readUint32BE bytes off with
    | none => .stop none
    | some chunkLength =>
      let chunkTypeOffset := off + 4
      let chunkEnd := chunkTypeOffset + 4 + chunkLength + 4
      if bytes.length < chunkEnd then .stop none
      else if isIendAt bytes chunkTypeOffset then .stop (some chunkEnd)
      else .next chunkEnd
  else .stop none

def pngWalk (bytes : Bytes) (off : Nat) : Option Nat :=
  iter (pngStep bytes) (bytes.length + 1) off

def findPngEnd (bytes : Bytes) (startOffset : Nat) : Option Nat :=
  if matchesAt bytes startOffset PNG_SIGNATURE then
    pngWalk bytes (startOffset + PNG_SIGNATURE.length)
  else none

theorem pngStep_next_bound (bytes : Bytes) :
    ∀ o o', pngStep bytes o = .next o' → o < bytes.length ∧ o < o' := by
  intro o o' h
  unfold pngStep at h
  split at h
  · next hle =>
    cases hr : readUint32BE bytes o with
    | none => rw [hr] at h; cases h
    | some chunkLength =>
      rw [hr] at h
      simp only at h
      split at h
      · cases h
      · split at h
        · cases h
        · cases h; omega
  · cases h

example : findPngEnd ([0x89, 0x50, 0x4e, 0x47, 0x0d, 0x0a, 0x1a, 0x0a] ++
    [0, 0, 0, 0, 0x49, 0x45, 0x4e, 0x44, 1, 2, 3, 4]) 0 = some 20 := by decide

/-! ## JPEG end detector (payloadCarving.ts lines 170-226) -/

/-- The inner `while` of the marker scan: skip consecutive `0xFF` bytes. -/
def skipFFAux (bytes : Bytes) : Nat → Nat → Nat
  | 0, off => off
  | fuel + 1, off =>
    if off < bytes.length && getB bytes off == 0xff then skipFFAux bytes fuel (off + 1)
    else off

def skipFF (bytes : Bytes) (off : Nat) : Nat := skipFFAux bytes (bytes.length + 1) off

theorem skipFFAux_ge (bytes : Bytes) :
    ∀ fuel off, off ≤ skipFFAux bytes fuel off := by
  intro fuel
  induction fuel with
  | zero => intro off; simp [skipFFAux]
  | succ fuel ih =>
    intro off
    simp only [skipFFAux]
    split
    · exact Nat.le_trans (Nat.le_succ off) (ih (off + 1))
    · exact Nat.le_refl off

theorem skipFF_ge (bytes : Bytes) (off : Nat) : off ≤ skipFF bytes off :=
  skipFFAux_ge bytes _ off

theorem skipFFAux_congr (bytes : Bytes) :
    ∀ f₁ f₂ off, bytes.length - off < f₁ → bytes.length - off < f₂ →
      skipFFAux bytes f₁ off = skipFFAux bytes f₂ off := by
  intro f₁
  induction f₁ with
  | zero => intro f₂ off h1; omega
  | succ f₁ ih =>
    intro f₂ off hb1 hb2
    match f₂, hb2 with
    | f₂ + 1, hb2 =>
      simp only [skipFFAux]
      split
      · next hcond =>
        have hlt : off < bytes.length := by
          rcases Bool.and_eq_true .. |>.mp hcond with ⟨h1, _⟩
          exact of_decide_eq_true h1
        exact ih f₂ (off + 1) (by omega) (by omega)
      · rfl

/-- If the byte under the cursor is not `0xFF` (or the cursor is out of range),
the skip loop stops immediately. -/
theorem skipFF_stop {bytes : Bytes} {off : Nat}
    (h : bytes.length ≤ off ∨ getB bytes off ≠ 0xff) : skipFF bytes off = off := by
  unfold skipFF skipFFAux
  split
  · next hcond =>
    rcases Bool.and_eq_true .. |>.mp hcond with ⟨h1, h2⟩
    rcases h with h | h
    · exact absurd (of_decide_eq_true h1) (by omega)
    · exact absurd (by simpa using h2) h
  · rfl

/-- Advancing over one `0xFF` byte. -/
theorem skipFF_cons {bytes : Bytes} {off : Nat}
    (h1 : off < bytes.length) (h2 : getB bytes off = 0xff) :
    skipFF bytes off = skipFF bytes (off + 1) := by
  have hc : (decide (off < bytes.length) && (getB bytes off == 0xff)) = true := by
    simp only [Bool.and_eq_true, decide_eq_true_eq, beq_iff_eq]
    exact ⟨h1, h2⟩
  unfold skipFF
  have step : skipFFAux bytes (bytes.length + 1) off = skipFFAux bytes bytes.length (off + 1) := by
    simp only [skipFFAux]
    rw [if_pos hc]
  rw [step]
  exact skipFFAux_congr bytes bytes.length (bytes.length + 1) (off + 1) (by omega) (by omega)

/-- One iteration of the JPEG marker scan. -/
def jpegStep (bytes : Bytes) (off : Nat) : StepRes :=
  if off + 1 < bytes.length then
    if getB bytes off ≠ 0xff then .next (off + 1)
    else
      let markerOffset := skipFF bytes (off + 1)
      if bytes.length ≤ markerOffset then .stop none
      else
        let marker := getB bytes markerOffset
        if marker = 0x00 then .next (markerOffset + 1)
        else if marker = 0xd9 then .stop (some (markerOffset + 1))
        else if marker = 0xd8 ∨ marker = 0x01 ∨ (0xd0 ≤ marker ∧ marker ≤ 0xd7) then
          .next (markerOffset + 1)
        else
          match readUint16BE bytes (markerOffset + 1) with
          | none => .stop none
          | some segmentLength =>
            if segmentLength < 2 then .stop none
            else
              let segmentEnd := markerOffset + 1 + segmentLength
              if bytes.length < segmentEnd then .stop none
              else .next segmentEnd
  else .stop none

def jpegWalk (bytes : Bytes) (off : Nat) : Option Nat :=
  iter (jpegStep bytes) (bytes.length + 1) off

def findJpegEnd (bytes : Bytes) (startOffset : Nat) : Option Nat :=
  if startOffset + 3 ≤ bytes.length ∧ getB bytes startOffset = 0xff ∧
      getB bytes (startOffset + 1) = 0xd8 ∧ getB bytes (startOffset + 2) = 0xff then
    jpegWalk bytes (startOffset + 2)
  else none

theorem jpegStep_next_bound (bytes : Bytes) :
    ∀ o o', jpegStep bytes o = .next o' → o < bytes.length ∧ o < o' := by
  intro o o' h
  have hge : o + 1 ≤ skipFF bytes (o + 1) := skipFF_ge bytes (o + 1)
  simp only [jpegStep] at h
  split at h
  · next hlen =>
    split at h
    · cases h; omega
    · split at h
      · cases h
      · split at h
        · cases h; omega
        · split at h
          · cases h
          · split at h
            · cases h; omega
            · cases hr : readUint16BE bytes (skipFF bytes (o + 1) + 1) with
              | none => rw [hr] at h; cases h
              | some segmentLength =>
                rw [hr] at h
                simp only at h
                split at h
                · cases h
                · split at h
                  · cases h
                  · cases h; omega
  · cases h

example : findJpegEnd [0xff, 0xd8, 0xff, 0x00, 0xff, 0xd9] 0 = some 6 := by decide
example : findJpegEnd [0xff, 0xd8, 0xff, 0xe1, 0x00, 0x01] 0 = none := by decide
example : findJpegEnd [0xff, 0xd8, 0xff, 0xe0, 0x00, 0x04, 0x11, 0x22, 0x11, 0xff, 0xd9] 0
    = some 11 := by decide

/-! ## GIF end detector (payloadCarving.ts lines 228-340) -/

/-- One iteration of the zero-terminated sub-block chain walk (the loop that
appears after image data at lines 278-288 and inside the generic-extension
branch at lines 322-332).  It yields the offset at which the enclosing
sentinel loop resumes, or `none` on a sub-block overrun. -/
def chainStep (bytes : Bytes) (off : Nat) : StepRes :=
  if bytes.length ≤ off then .stop (some off)
  else
    let blockSize := getB bytes off
    if blockSize = 0 then .stop (some (off + 1))
    else
      let off' := off + 1 + blockSize
      if bytes.length < off' then .stop none
      else .next off'

def subBlockChain (bytes : Bytes) (off : Nat) : Option Nat :=
  iter (chainStep bytes) (bytes.length + 1) off

theorem chainStep_next_bound (bytes : Bytes) :
    ∀ o o', chainStep bytes o = .next o' → o < bytes.length ∧ o < o' := by
  intro o o' h
  simp only [chainStep] at h
  split at h
  · cases h
  · split at h
    · cases h
    · split at h
      · cases h
      · cases h; omega

theorem subBlockChain_ge {bytes : Bytes} {off r : Nat}
    (h : subBlockChain bytes off = some r) : off ≤ r := by
  refine iter_ge ?_ ?_ h
  · intro o o' hs
    exact (chainStep_next_bound bytes o o' hs).2.le
  · intro o r' hs
    simp only [chainStep] at hs
    split at hs
    · cases hs; omega
    · split at hs
      · cases hs; omega
      · split at hs
        · cases hs
        · cases hs

/-- The source's handling of the body of a non-graphics-control extension
(lines 313-332): the first declared sub-block is consumed unconditionally,
then the remaining bytes are walked as a zero-terminated sub-block chain. -/
def extensionBody (bytes : Bytes) (off : Nat) : Option Nat :=
  if bytes.length ≤ off then none
  else
    let firstBlockSize := getB bytes off
    let off' := off + 1 + firstBlockSize
    if bytes.length < off' then none
    else subBlockChain bytes off'

theorem extensionBody_ge {bytes : Bytes} {off r : Nat}
    (h : extensionBody bytes off = some r) : off < r := by
  simp only [extensionBody] at h
  split at h
  · cases h
  · split at h
    · cases h
    · have := subBlockChain_ge h
      omega

/-- One iteration of the GIF block-sentinel loop (lines 250-337). -/
def gifStep (bytes : Bytes) (off : Nat) : StepRes :=
  if bytes.length ≤ off then .stop none
  else
    let sentinel := getB bytes off
    let off1 := off + 1
    if sentinel = 0x3b then .stop (some off1)
    else if sentinel = 0x2c then
      if bytes.length < off1 + 9 then .stop none
      else
        let packedLocal := getB bytes (off1 + 8)
        let off2 := off1 + 9
        let off3 := if packedLocal &&& 0x80 ≠ 0
          then off2 + 3 * (1 <<< ((packedLocal &&& 0x07) + 1)) else off2
        -- the source bounds-checks only when a local color table is present;
        -- without one off3 = off2 ≤ length already, so this test is then vacuous
        if bytes.length < off3 then .stop none
        else if bytes.length ≤ off3 then .stop none
        else
          match subBlockChain bytes (off3 + 1) with
          | none => .stop none
          | some o => .next o
    else if sentinel = 0x21 then
      if bytes.length ≤ off1 then .stop none
      else
        let extensionLabel := getB bytes off1
        let off2 := off1 + 1
        if extensionLabel = 0xf9 then
          if bytes.length ≤ off2 then .stop none
          else
            let blockSize := getB bytes off2
            let off3 := off2 + 1 + blockSize
            if bytes.length ≤ off3 ∨ getB bytes off3 ≠ 0x00 then .stop none
            else .next (off3 + 1)
        else
          match extensionBody bytes off2 with
          | none => .stop none
          | some o => .next o
    else .stop none

def gifWalk (bytes : Bytes) (off : Nat) : Option Nat :=
  iter (gifStep bytes) (bytes.length + 1) off

def findGifEnd (bytes : Bytes) (startOffset : Nat) : Option Nat :=
  if matchesAt bytes startOffset GIF87A_SIGNATURE ||
      matchesAt bytes startOffset GIF89A_SIGNATURE then
    if bytes.length < startOffset + 13 then none
    else
      let packedGlobal := getB bytes (startOffset + 10)
      let off0 := startOffset + 13
      if packedGlobal &&& 0x80 ≠ 0 then
        let off1 := off0 + 3 * (1 <<< ((packedGlobal &&& 0x07) + 1))
        if bytes.length < off1 then none else gifWalk bytes off1
      else gifWalk bytes off0
  else none

theorem gifStep_next_bound (bytes : Bytes) :
    ∀ o o', gifStep bytes o = .next o' → o < bytes.length ∧ o < o' := by
  intro o o' h
  simp only [gifStep] at h
  split at h
  · cases h
  · next hlen =>
    refine ⟨by omega, ?_⟩
    repeat' split at h
    all_goals try cases h
    all_goals first
      | omega
      | (rename_i heq; have := subBlockChain_ge heq; omega)
      | (rename_i heq; have := extensionBody_ge heq; omega)

example : findGifEnd [0x47, 0x49, 0x46, 0x38, 0x39, 0x61,
    1, 0, 1, 0, 0, 0, 0, 0x3b] 0 = some 14 := by decide

-- The interesting edge: a generic extension whose body starts with a
-- zero-length sub-block.  The source consumes it unconditionally and then
-- misreads the trailer byte as a block length.
example : findGifEnd [0x47, 0x49, 0x46, 0x38, 0x39, 0x61,
    1, 0, 1, 0, 0, 0, 0, 0x21, 0xfe, 0x00, 0x3b] 0 = none := by decide
example : subBlockChain [0x47, 0x49, 0x46, 0x38, 0x39, 0x61,
    1, 0, 1, 0, 0, 0, 0, 0x21, 0xfe, 0x00, 0x3b] 15 = some 16 := by decide
example : extensionBody [0x47, 0x49, 0x46, 0x38, 0x39, 0x61,
    1, 0, 1, 0, 0, 0, 0, 0x21, 0xfe, 0x00, 0x3b] 15 = none := by decide

/-! ## WebP and BMP end detectors (payloadCarving.ts lines 342-383) -/

def findWebpEnd (bytes : Bytes) (startOffset : Nat) : Option Nat :=
  if matchesAt bytes startOffset RIFF_SIGNATURE &&
      matchesAt bytes (startOffset + 8) WEBP_SIGNATURE then
    match readUint32LE bytes (startOffset + 4) with
    | none => none
    | some riffPayloadLength =>
      let endOffset := startOffset + 8 + riffPayloadLength
      if bytes.length < endOffset ∨ endOffset ≤ startOffset + 8 then none
      else some endOffset
  else none

def findBmpEnd (bytes : Bytes) (startOffset : Nat) : Option Nat :=
  if startOffset + 6 ≤ bytes.length ∧ getB bytes startOffset = 0x42 ∧
      getB bytes (startOffset + 1) = 0x4d then
    match readUint32LE bytes (startOffset + 2) with
    | none => none
    | some size =>
      if size < 26 then none
      else
        let endOffset := startOffset + size
        if bytes.length < endOffset then none else some endOffset
  else none

/-! ## PDF end detector (payloadCarving.ts lines 119-135 and 385-418) -/

/-- `findNextPattern`: first offset at or after `fromOffset` where `pat`
matches (`none` models the source's `-1`). -/
def fnpStep (bytes pat : Bytes) (off : Nat) : StepRes :=
  if off + pat.length ≤ bytes.length then
    if matchesAt bytes off pat then .stop (some off) else .next (off + 1)
  else .stop none

def findNextPattern (bytes pat : Bytes) (fromOffset : Nat) : Option Nat :=
  iter (fnpStep bytes pat) (bytes.length + 1) fromOffset

/-- The `%%EOF` search loop of `findPdfEnd` (lines 393-401), tracking the last
occurrence found so far. -/
def pdfEofLoop (bytes : Bytes) : Nat → Nat → Option Nat → Option Nat
  | 0, _, lastEof => lastEof
  | fuel + 1, searchOffset, lastEof =>
    if searchOffset + PDF_EOF_MARKER.length ≤ bytes.length then
      match findNextPattern bytes PDF_EOF_MARKER searchOffset with
      | none => lastEof
      | some found => pdfEofLoop bytes fuel (found + PDF_EOF_MARKER.length) (some found)
    else lastEof

/-- The trailing CR/LF/space/tab skip of `findPdfEnd` (lines 408-415). -/
def pdfSkipWs (bytes : Bytes) : Nat → Nat → Nat
  | 0, endOffset => endOffset
  | fuel + 1, endOffset =>
    if endOffset < bytes.length then
      let value := getB bytes endOffset
      if value = 0x0d ∨ value = 0x0a ∨ value = 0x20 ∨ value = 0x09 then
        pdfSkipWs bytes fuel (endOffset + 1)
      else endOffset
    else endOffset

def findPdfEnd (bytes : Bytes) (startOffset : Nat) : Option Nat :=
  if matchesAt bytes startOffset PDF_SIGNATURE then
    match pdfEofLoop bytes (bytes.length + 1) (startOffset + PDF_SIGNATURE.length) none with
    | none => none
    | some lastEofOffset =>
      some (pdfSkipWs bytes (bytes.length + 1) (lastEofOffset + PDF_EOF_MARKER.length))
  else none

-- 0x25 0x50 0x44 0x46 0x2d = %PDF-, then "1.7\n1 0 obj\n<<>>\nendobj\n%%EOF\n"
example : findPdfEnd [0x25, 0x50, 0x44, 0x46, 0x2d, 0x31, 0x2e, 0x37, 0x0a,
    0x31, 0x20, 0x30, 0x20, 0x6f, 0x62, 0x6a, 0x0a, 0x3c, 0x3c, 0x3e, 0x3e, 0x0a,
    0x65, 0x6e, 0x64, 0x6f, 0x62, 0x6a, 0x0a,
    0x25, 0x25, 0x45, 0x4f, 0x46, 0x0a] 0 = some 35 := by decide

/-! ## ZIP end detector (payloadCarving.ts lines 420-446) -/

/-- One iteration of the forward EOCD scan. -/
def zipStep (bytes : Bytes) (off : Nat) : StepRes :=
  if off + 22 ≤ bytes.length then
    if matchesAt bytes off ZIP_EOCD_SIGNATURE then
      match readUint16LE bytes (off + 20) with
      | none => .next (off + 1)
      | some commentLength =>
        let endOffset := off + 22 + commentLength
        if endOffset ≤ bytes.length then .stop (some endOffset) else .next (off + 1)
    else .next (off + 1)
  else .stop none

def zipScan (bytes : Bytes) (off : Nat) : Option Nat :=
  iter (zipStep bytes) (bytes.length + 1) off

def findZipEnd (bytes : Bytes) (startOffset : Nat) : Option Nat :=
  if matchesAt bytes startOffset ZIP_LOCAL_FILE_SIGNATURE then
    zipScan bytes (startOffset + ZIP_LOCAL_FILE_SIGNATURE.length)
  else none

theorem zipStep_next_bound (bytes : Bytes) :
    ∀ o o', zipStep bytes o = .next o' → o < bytes.length ∧ o < o' := by
  intro o o' h
  simp only [zipStep] at h
  split at h
  · next hlen =>
    refine ⟨by omega, ?_⟩
    split at h
    · cases hr : readUint16LE bytes (o + 20) with
      | none => rw [hr] at h; cases h; omega
      | some commentLength =>
        rw [hr] at h
        simp only at h
        split at h
        · cases h
        · cases h; omega
    · cases h; omega
  · cases h

example : findZipEnd [0x50, 0x4b, 0x03, 0x04, 0x00, 0x00,
    0x50, 0x4b, 0x05, 0x06, 0, 0, 0, 0, 0, 0, 0, 0, 0, 0, 0, 0, 0, 0, 0, 0,
    0x00, 0x00] 0 = some 28 := by decide

/-! ## Host trailing-data detectors (trailingData.ts lines 1-143)

`trailingData.ts` duplicates the PNG/JPEG walks with small textual
differences; the namespace `Trailing` holds its versions. -/

namespace Trailing

/-- The file's own `readUint32BE` (trailingData.ts lines 7-15), which has no
bounds check. -/
def readUint32BE (bytes : Bytes) (offset : Nat) : Nat :=
  (getB bytes offset <<< 24) ||| (getB bytes (offset + 1) <<< 16) |||
    (getB bytes (offset + 2) <<< 8) ||| getB bytes (offset + 3)

/-- One iteration of the PNG chunk walk of `findPngContainerEnd`
(lines 29-48). -/
def pngStep (bytes : Bytes) (off : Nat) : StepRes :=
  if off + 12 ≤ bytes.length then
    let chunkLength := readUint32BE bytes off
    let chunkTypeOffset := off + 4
    let chunkEnd := chunkTypeOffset + 4 + chunkLength + 4
    if bytes.length < chunkEnd then .stop none
    else if isIendAt bytes chunkTypeOffset then .stop (some chunkEnd)
    else .next chunkEnd
  else .stop none

/-- One iteration of the JPEG marker scan of `findJpegContainerEnd`
(lines 59-109). -/
def jpegStep (bytes : Bytes) (off : Nat) : StepRes :=
  if off + 1 < bytes.length then
    if getB bytes off ≠ 0xff then .next (off + 1)
    else
      let markerOffset := skipFF bytes (off + 1)
      if bytes.length ≤ markerOffset then .stop none
      else
        let marker := getB bytes markerOffset
        if marker = 0x00 then .next (markerOffset + 1)
        else if marker = 0xd9 then .stop (some (markerOffset + 1))
        else if marker = 0xd8 ∨ marker = 0x01 ∨ (0xd0 ≤ marker ∧ marker ≤ 0xd7) then
          .next (markerOffset + 1)
        else if bytes.length ≤ markerOffset + 2 then .stop none
        else
          let segmentLength := (getB bytes (markerOffset + 1) <<< 8) |||
            getB bytes (markerOffset + 2)
          if segmentLength < 2 then .stop none
          else
            let segmentEnd := markerOffset + 1 + segmentLength
            if bytes.length < segmentEnd then .stop none
            else .next segmentEnd
  else .stop none

end Trailing

def findPngContainerEnd (bytes : Bytes) : Option Nat :=
  if bytes.length < PNG_SIGNATURE.length then none
  else if (List.range PNG_SIGNATURE.length).all
      (fun i => getB bytes i == getB PNG_SIGNATURE i) then
    iter (Trailing.pngStep bytes) (bytes.length + 1) PNG_SIGNATURE.length
  else none

def findJpegContainerEnd (bytes : Bytes) : Option Nat :=
  if bytes.length < 4 ∨ getB bytes 0 ≠ 0xff ∨ getB bytes 1 ≠ 0xd8 then none
  else iter (Trailing.jpegStep bytes) (bytes.length + 1) 2

/-- The declared image formats of the host application (types.ts,
`SupportedImageFormat`). -/
inductive SupportedImageFormat where
  | png | jpeg | webp | bmp | tiff | gif
deriving DecidableEq

def findContainerEndOffset (bytes : Bytes) : SupportedImageFormat → Option Nat
  | .png => findPngContainerEnd bytes
  | .jpeg => findJpegContainerEnd bytes
  | _ => none

structure TrailingData where
  containerEndOffset : Nat
  byteLength : Nat
  bytes : Bytes
deriving DecidableEq

def extractTrailingData (bytes : Bytes) (format : SupportedImageFormat) :
    Option TrailingData :=
  match findContainerEndOffset bytes format with
  | none => none
  | some containerEndOffset =>
    if bytes.length ≤ containerEndOffset then none
    else some { containerEndOffset := containerEndOffset,
                byteLength := bytes.length - containerEndOffset,
                bytes := bytes.drop containerEndOffset }

/-- The two PNG chunk-walk step functions are the same function. -/
theorem trailing_pngStep_eq (bytes : Bytes) : Trailing.pngStep bytes = pngStep bytes := by
  funext off
  unfold Trailing.pngStep pngStep
  split
  · next hle =>
    have h4 : off + 4 ≤ bytes.length := by omega
    simp only [readUint32BE, Trailing.readUint32BE, if_pos h4]
  · rfl

/-- The two JPEG marker-scan step functions are the same function. -/
theorem trailing_jpegStep_eq (bytes : Bytes) : Trailing.jpegStep bytes = jpegStep bytes := by
  funext off
  unfold Trailing.jpegStep jpegStep
  split
  · split
    · rfl
    · refine ite_congr rfl (fun _ => rfl) (fun hm => ?_)
      refine ite_congr rfl (fun _ => rfl) (fun _ => ?_)
      refine ite_congr rfl (fun _ => rfl) (fun _ => ?_)
      refine ite_congr rfl (fun _ => rfl) (fun _ => ?_)
      by_cases hlen : bytes.length ≤ skipFF bytes (off + 1) + 2
      · rw [if_pos hlen]
        have : readUint16BE bytes (skipFF bytes (off + 1) + 1) = none := by
          unfold readUint16BE
          rw [if_neg (by omega)]
        rw [this]
      · rw [if_neg hlen]
        have : readUint16BE bytes (skipFF bytes (off + 1) + 1) =
            some ((getB bytes (skipFF bytes (off + 1) + 1) <<< 8) |||
              getB bytes (skipFF bytes (off + 1) + 1 + 1)) := by
          unfold readUint16BE
          rw [if_pos (by omega)]
        rw [this]
  · rfl

example : findPngContainerEnd ([0x89, 0x50, 0x4e, 0x47, 0x0d, 0x0a, 0x1a, 0x0a] ++
    [0, 0, 0, 0, 0x49, 0x45, 0x4e, 0x44, 1, 2, 3, 4]) = some 20 := by decide
example : findJpegContainerEnd [0xff, 0xd8, 0x00, 0xff, 0xd9] = some 5 := by decide
example : findJpegEnd [0xff, 0xd8, 0x00, 0xff, 0xd9] 0 = none := by decide

/-! ## Signature catalog and carving orchestrator (payloadCarving.ts lines 1-45
and 448-657) -/

inductive CarvedPayloadKind where
  | png | jpeg | gif | webp | bmp | tiff | pdf | zip
deriving DecidableEq

inductive PayloadConfidence where
  | high | medium | low
deriving DecidableEq

structure CarvedPayload where
  id : String
  kind : CarvedPayloadKind
  label : String
  extension : String
  mimeType : String
  signature : String
  startOffset : Nat
  endOffset : Nat
  byteLength : Nat
  confidence : PayloadConfidence
  strategy : String
deriving DecidableEq

structure PayloadCarvingOptions where
  maxFindings : Option Int := none

structure SignatureSpec where
  kind : CarvedPayloadKind
  label : String
  extension : String
  mimeType : String
  signature : String
  strategy : String
  matchAt : Bytes → Nat → Bool
  findEnd : Bytes → Nat → Option Nat

structure Candidate where
  spec : SignatureSpec
  startOffset : Nat

def matchWebpAt (bytes : Bytes) (offset : Nat) : Bool :=
  matchesAt bytes offset RIFF_SIGNATURE && matchesAt bytes (offset + 8) WEBP_SIGNATURE

def SIGNATURE_SPECS : List SignatureSpec := [
  { kind := .png, label := "PNG image", extension := "png", mimeType := "image/png",
    signature := "PNG signature", strategy := "Parsed PNG chunks through IEND.",
    matchAt := fun bytes offset => matchesAt bytes offset PNG_SIGNATURE,
    findEnd := findPngEnd },
  { kind := .jpeg, label := "JPEG image", extension := "jpg", mimeType := "image/jpeg",
    signature := "JPEG SOI marker", strategy := "Parsed JPEG markers through EOI.",
    matchAt := fun bytes offset => decide (offset + 3 ≤ bytes.length) &&
      (getB bytes offset == 0xff) && (getB bytes (offset + 1) == 0xd8) &&
      (getB bytes (offset + 2) == 0xff),
    findEnd := findJpegEnd },
  { kind := .gif, label := "GIF image", extension := "gif", mimeType := "image/gif",
    signature := "GIF87a/GIF89a header", strategy := "Parsed GIF block stream through trailer.",
    matchAt := fun bytes offset => matchesAt bytes offset GIF87A_SIGNATURE ||
      matchesAt bytes offset GIF89A_SIGNATURE,
    findEnd := findGifEnd },
  { kind := .webp, label := "WebP image", extension := "webp", mimeType := "image/webp",
    signature := "RIFF WEBP header", strategy := "Used RIFF container length.",
    matchAt := matchWebpAt,
    findEnd := findWebpEnd },
  { kind := .bmp, label := "BMP image", extension := "bmp", mimeType := "image/bmp",
    signature := "BM header", strategy := "Used BMP file size field.",
    matchAt := fun bytes offset => decide (offset + 2 ≤ bytes.length) &&
      (getB bytes offset == 0x42) && (getB bytes (offset + 1) == 0x4d),
    findEnd := findBmpEnd },
  { kind := .tiff, label := "TIFF image", extension := "tiff", mimeType := "image/tiff",
    signature := "TIFF byte-order header",
    strategy := "No reliable TIFF end marker; used signature boundary fallback.",
    matchAt := fun bytes offset => matchesAt bytes offset TIFF_LE_SIGNATURE ||
      matchesAt bytes offset TIFF_BE_SIGNATURE,
    findEnd := fun _ _ => none },
  { kind := .pdf, label := "PDF document", extension := "pdf", mimeType := "application/pdf",
    signature := "PDF header", strategy := "Searched for final EOF marker.",
    matchAt := fun bytes offset => matchesAt bytes offset PDF_SIGNATURE,
    findEnd := findPdfEnd },
  { kind := .zip, label := "ZIP archive", extension := "zip", mimeType := "application/zip",
    signature := "ZIP local file header", strategy := "Parsed ZIP EOCD footer.",
    matchAt := fun bytes offset => matchesAt bytes offset ZIP_LOCAL_FILE_SIGNATURE,
    findEnd := findZipEnd }]

/-- Stable-enough insertion sort modelling the ascending
`candidates.sort((a, b) => a.startOffset - b.startOffset)` of
`gatherCandidates`; only "sorted ascending by start offset, all candidates
kept" is relied upon. -/
def insertSorted (c : Candidate) : List Candidate → List Candidate
  | [] => [c]
  | d :: rest =>
    if d.startOffset ≤ c.startOffset then d :: insertSorted c rest
    else c :: d :: rest

def sortCandidates (l : List Candidate) : List Candidate :=
  l.foldr insertSorted []

def gatherCandidates (bytes : Bytes) : List Candidate :=
  let scanned := (List.range bytes.length).foldl
    (fun acc offset => SIGNATURE_SPECS.foldl
      (fun (acc : List Candidate × List (CarvedPayloadKind × Nat)) spec =>
        if spec.matchAt bytes offset then
          if (spec.kind, offset) ∈ acc.2 then acc
          else (acc.1 ++ [{ spec := spec, startOffset := offset }], (spec.kind, offset) :: acc.2)
        else acc)
      acc)
    ([], [])
  sortCandidates scanned.1

def findNextCandidateOffset (sortedStartOffsets : List Nat)
    (currentStartOffset : Nat) : Option Nat :=
  sortedStartOffsets.find? (fun offset => currentStartOffset < offset)

def kindStr : CarvedPayloadKind → String
  | .png => "png" | .jpeg => "jpeg" | .gif => "gif" | .webp => "webp"
  | .bmp => "bmp" | .tiff => "tiff" | .pdf => "pdf" | .zip => "zip"

def payloadKey (kind : CarvedPayloadKind) (startOffset endOffset : Nat) : String :=
  kindStr kind ++ "|" ++ toString startOffset ++ "|" ++ toString endOffset

def FALLBACK_STRATEGY : String := "Signature matched; carved to next signature/end of scan."

/-- The fallback end for a candidate whose detector failed: next candidate
start (or buffer end), or `none` when the candidate must be skipped. -/
def fallbackSpan (bytes : Bytes) (candidateOffsets : List Nat) (startOffset : Nat) :
    Option Nat :=
  let fallbackEnd := (findNextCandidateOffset candidateOffsets startOffset).getD bytes.length
  if fallbackEnd ≤ startOffset then none else some fallbackEnd

/-- End offset, confidence and strategy for one candidate, mirroring lines
607-629 of the source. -/
def resolveCandidate (bytes : Bytes) (candidateOffsets : List Nat) (c : Candidate) :
    Option (Nat × PayloadConfidence × String) :=
  let fallback := (fallbackSpan bytes candidateOffsets c.startOffset).map
    (fun e => (e, PayloadConfidence.low, FALLBACK_STRATEGY))
  match c.spec.findEnd bytes c.startOffset with
  | none => fallback
  | some e =>
    if c.startOffset < e ∧ e ≤ bytes.length then
      some (e, if c.spec.kind = CarvedPayloadKind.pdf then .medium else .high, c.spec.strategy)
    else fallback

def carveLoop (bytes : Bytes) (candidateOffsets : List Nat) (maxFindings : Nat) :
    List Candidate → List CarvedPayload → List String → List CarvedPayload
  | [], found, _ => found
  | c :: rest, found, seen =>
    match resolveCandidate bytes candidateOffsets c with
    | none => carveLoop bytes candidateOffsets maxFindings rest found seen
    | some (endOffset, confidence, strategy) =>
      let key := payloadKey c.spec.kind c.startOffset endOffset
      if key ∈ seen then carveLoop bytes candidateOffsets maxFindings rest found seen
      else
        let payload : CarvedPayload :=
          { id := key, kind := c.spec.kind, label := c.spec.label,
            extension := c.spec.extension, mimeType := c.spec.mimeType,
            signature := c.spec.signature, startOffset := c.startOffset,
            endOffset := endOffset, byteLength := endOffset - c.startOffset,
            confidence := confidence, strategy := strategy }
        let found' := found ++ [payload]
        if maxFindings ≤ found'.length then found'
        else carveLoop bytes candidateOffsets maxFindings rest found' (key :: seen)

def detectCarvedPayloads (bytes : Bytes)
    (options : PayloadCarvingOptions := {}) : List CarvedPayload :=
  if bytes.length = 0 then []
  else
    let maxFindings := (max 0 (options.maxFindings.getD 24)).toNat
    if maxFindings = 0 then []
    else
      let candidates := gatherCandidates bytes
      if candidates.isEmpty then []
      else
        let candidateOffsets := candidates.map (fun c => c.startOffset)
        carveLoop bytes candidateOffsets maxFindings candidates [] []

-- TIFF-LE signature, four zero filler bytes, a second TIFF-LE signature.
def tiffFallbackBuf : Bytes :=
  [0x49, 0x49, 0x2a, 0x00, 0, 0, 0, 0, 0x49, 0x49, 0x2a, 0x00]

example : (detectCarvedPayloads tiffFallbackBuf {}).map
    (fun p => (p.kind, p.startOffset, p.endOffset, p.byteLength, p.confidence)) =
    [(.tiff, 0, 8, 8, .low), (.tiff, 8, 12, 4, .low)] := by decide

example : detectCarvedPayloads [] {} = [] := by decide
example : detectCarvedPayloads tiffFallbackBuf { maxFindings := some 0 } = [] := by decide

/-! ## Bit-plane stream extraction (the bitPlane module) -/

inductive ChannelKey where
  | r | g | b | a
deriving DecidableEq

inductive ScanOrder where
  | rowMajor | columnMajor
deriving DecidableEq

inductive ChannelOrder where
  | rgba | bgra | argb | abgr
deriving DecidableEq

inductive BitOrder where
  | lsbToMsb | msbToLsb
deriving DecidableEq

inductive BytePackOrder where
  | msbFirst | lsbFirst
deriving DecidableEq

structure BitExtractionOptions where
  scanOrder : ScanOrder
  channelOrder : ChannelOrder
  bitOrder : BitOrder
  bytePackOrder : BytePackOrder

structure PlaneSpec where
  id : String
  channel : ChannelKey
  channelOffset : Nat
  bitPosition : Nat
  bitMask : Nat
deriving DecidableEq

/-- A decoded pixel buffer: RGBA bytes, row-major. -/
structure ImageData where
  width : Nat
  height : Nat
  data : Bytes

def channelKeyStr : ChannelKey → String
  | .r => "r" | .g => "g" | .b => "b" | .a => "a"

def channelOffsetOf : ChannelKey → Nat
  | .r => 0 | .g => 1 | .b => 2 | .a => 3

/-- The 32-entry plane catalog (`buildPlaneSpecs`). -/
def buildPlaneSpecs : List PlaneSpec :=
  [ChannelKey.r, .g, .b, .a].flatMap (fun channel =>
    (List.range 8).map (fun i =>
      let bitPosition := i + 1
      { id := channelKeyStr channel ++ "-" ++ toString bitPosition,
        channel := channel,
        channelOffset := channelOffsetOf channel,
        bitPosition := bitPosition,
        bitMask := 1 <<< i }))

def CHANNEL_ORDER_MAP : ChannelOrder → List ChannelKey
  | .rgba => [.r, .g, .b, .a]
  | .bgra => [.b, .g, .r, .a]
  | .argb => [.a, .r, .g, .b]
  | .abgr => [.a, .b, .g, .r]

def BIT_ORDER_MAP : BitOrder → List Nat
  | .lsbToMsb => [1, 2, 3, 4, 5, 6, 7, 8]
  | .msbToLsb => [8, 7, 6, 5, 4, 3, 2, 1]

/-- `orderSelectedPlanes`: canonical traversal order over the selected planes.
The source stores the planes in a `Map` keyed by `id` (later inserts win) and
looks up `channel-bitPosition` keys, so the lookup finds the last plane in the
list bearing that id. -/
def orderSelectedPlanes (planes : List PlaneSpec) (options : BitExtractionOptions) :
    List PlaneSpec :=
  (CHANNEL_ORDER_MAP options.channelOrder).flatMap (fun channel =>
    (BIT_ORDER_MAP options.bitOrder).filterMap (fun bitPosition =>
      planes.reverse.find?
        (fun p => p.id == channelKeyStr channel ++ "-" ++ toString bitPosition)))

structure ExtractedBitPlaneStream where
  bytes : Bytes
  totalBits : Nat
  totalBytes : Nat
  bitsPerPixel : Nat
deriving DecidableEq

/-- Destination bit position within a byte for the `emittedBits`-th bit. -/
def packBitPos (bytePackOrder : BytePackOrder) (emittedBits : Nat) : Nat :=
  match bytePackOrder with
  | .msbFirst => 7 - (emittedBits &&& 0b111)
  | .lsbFirst => emittedBits &&& 0b111

/-- `bytes[byteIndex] |= 1 << bitPositionInByte` for the `emittedBits`-th bit. -/
def setEmittedBit (bytePackOrder : BytePackOrder) (out : Bytes) (emittedBits : Nat) :
    Bytes :=
  let byteIndex := emittedBits >>> 3
  out.set byteIndex (getB out byteIndex ||| (1 <<< packBitPos bytePackOrder emittedBits))

/-- The per-plane body of `processPixel`: state is (output bytes, emittedBits). -/
def planeStep (source : Bytes) (bitsToPack : Nat) (bytePackOrder : BytePackOrder)
    (pixelStartIndex : Nat) (st : Bytes × Nat) (plane : PlaneSpec) : Bytes × Nat :=
  if bitsToPack ≤ st.2 then st
  else
    let planeBitIsSet := getB source (pixelStartIndex + plane.channelOffset) &&& plane.bitMask ≠ 0
    let out := if planeBitIsSet then setEmittedBit bytePackOrder st.1 st.2 else st.1
    (out, st.2 + 1)

def processPixel (source : Bytes) (orderedPlanes : List PlaneSpec) (bitsToPack : Nat)
    (bytePackOrder : BytePackOrder) (st : Bytes × Nat) (pixelStartIndex : Nat) :
    Bytes × Nat :=
  orderedPlanes.foldl (planeStep source bitsToPack bytePackOrder pixelStartIndex) st

/-- The pixel loop with the source's early exit once the bit budget is hit. -/
def runPixels (source : Bytes) (orderedPlanes : List PlaneSpec) (bitsToPack : Nat)
    (bytePackOrder : BytePackOrder) : List Nat → Bytes × Nat → Bytes × Nat
  | [], st => st
  | pixelStartIndex :: rest, st =>
    let st' := processPixel source orderedPlanes bitsToPack bytePackOrder st pixelStartIndex
    if bitsToPack ≤ st'.2 then st'
    else runPixels source orderedPlanes bitsToPack bytePackOrder rest st'

/-- Pixel start indices in scan order (row-major: x innermost; column-major:
y innermost), as produced by the nested loops of the source. -/
def pixelStarts (width height : Nat) : ScanOrder → List Nat
  | .rowMajor => (List.range height).flatMap (fun y =>
      (List.range width).map (fun x => (y * width + x) * 4))
  | .columnMajor => (List.range width).flatMap (fun x =>
      (List.range height).map (fun y => (y * width + x) * 4))

/-- Final (output bytes, emittedBits) state of `extractBitPlaneStream`. -/
def bitStreamState (imageData : ImageData) (planes : List PlaneSpec)
    (options : BitExtractionOptions) (maxBytes : Int) : Bytes × Nat :=
  let orderedPlanes := orderSelectedPlanes planes options
  let bitsPerPixel := orderedPlanes.length
  let totalBits := imageData.width * imageData.height * bitsPerPixel
  let totalBytes := (totalBits + 7) / 8
  let clampedMaxBytes := (max 0 maxBytes).toNat
  let bytesToPack := min totalBytes clampedMaxBytes
  let out := List.replicate bytesToPack 0
  if bitsPerPixel = 0 ∨ bytesToPack = 0 ∨ totalBits = 0 then (out, 0)
  else
    let bitsToPack := min totalBits (bytesToPack * 8)
    runPixels imageData.data orderedPlanes bitsToPack options.bytePackOrder
      (pixelStarts imageData.width imageData.height options.scanOrder) (out, 0)

def extractBitPlaneStream (imageData : ImageData) (planes : List PlaneSpec)
    (options : BitExtractionOptions) (maxBytes : Int) : ExtractedBitPlaneStream :=
  let orderedPlanes := orderSelectedPlanes planes options
  let bitsPerPixel := orderedPlanes.length
  let totalBits := imageData.width * imageData.height * bitsPerPixel
  { bytes := (bitStreamState imageData planes options maxBytes).1,
    totalBits := totalBits,
    totalBytes := (totalBits + 7) / 8,
    bitsPerPixel := bitsPerPixel }

-- Three one-bit planes over three pixels under a 1-byte budget:
-- bits r,g,b of pixels 0..2 are 1,0,1 / 0,1,1 / 1,1,(cut), msb-first = 0xAF.
def examplePlanes : List PlaneSpec :=
  [{ id := "r-1", channel := .r, channelOffset := 0, bitPosition := 1, bitMask := 1 },
   { id := "g-1", channel := .g, channelOffset := 1, bitPosition := 1, bitMask := 1 },
   { id := "b-1", channel := .b, channelOffset := 2, bitPosition := 1, bitMask := 1 }]

def exampleOptions : BitExtractionOptions :=
  { scanOrder := .rowMajor, channelOrder := .rgba, bitOrder := .lsbToMsb,
    bytePackOrder := .msbFirst }

def exampleImage : ImageData :=
  { width := 3, height := 1,
    data := [1, 0, 1, 255, 0, 1, 1, 255, 1, 1, 0, 255] }

example : (extractBitPlaneStream exampleImage examplePlanes exampleOptions 1).bytes
    = [0xaf] := by decide
example : (extractBitPlaneStream exampleImage examplePlanes exampleOptions 1).totalBytes
    = 2 := by decide
example : (bitStreamState exampleImage examplePlanes exampleOptions 1).2 = 8 := by decide

/-! ## Lemmas about the candidate scan and the orchestrator -/

theorem foldl_invariant {α β : Type} (P : β → Prop) (f : β → α → β) :
    ∀ (l : List α) (init : β), P init → (∀ acc x, x ∈ l → P acc → P (f acc x)) →
      P (l.foldl f init) := by
  intro l
  induction l with
  | nil => intro init h _; exact h
  | cons x rest ih =>
    intro init h hstep
    exact ih (f init x) (hstep init x (by simp) h)
      (fun acc y hy hacc => hstep acc y (by simp [hy]) hacc)

theorem mem_insertSorted {a c : Candidate} :
    ∀ {l : List Candidate}, a ∈ insertSorted c l ↔ a = c ∨ a ∈ l := by
  intro l
  induction l with
  | nil => simp [insertSorted]
  | cons d rest ih =>
    simp only [insertSorted]
    split
    · simp only [List.mem_cons, ih]
      tauto
    · simp only [List.mem_cons]

theorem mem_sortCandidates {a : Candidate} :
    ∀ {l : List Candidate}, a ∈ sortCandidates l ↔ a ∈ l := by
  intro l
  induction l with
  | nil => simp [sortCandidates]
  | cons c rest ih =>
    show a ∈ insertSorted c (sortCandidates rest) ↔ _
    rw [mem_insertSorted, ih, List.mem_cons]

theorem sorted_insertSorted {c : Candidate} :
    ∀ {l : List Candidate}, l.Pairwise (fun a b => a.startOffset ≤ b.startOffset) →
      (insertSorted c l).Pairwise (fun a b => a.startOffset ≤ b.startOffset) := by
  intro l
  induction l with
  | nil => intro _; simp [insertSorted]
  | cons d rest ih =>
    intro h
    rw [List.pairwise_cons] at h
    simp only [insertSorted]
    split
    · next hle =>
      rw [List.pairwise_cons]
      refine ⟨?_, ih h.2⟩
      intro a ha
      rcases mem_insertSorted.mp ha with rfl | ha
      · exact hle
      · exact h.1 a ha
    · next hgt =>
      rw [List.pairwise_cons]
      refine ⟨?_, List.pairwise_cons.mpr h⟩
      intro a ha
      rcases List.mem_cons.mp ha with rfl | ha
      · omega
      · exact Nat.le_trans (by omega) (h.1 a ha)

theorem sorted_sortCandidates :
    ∀ {l : List Candidate},
      (sortCandidates l).Pairwise (fun a b => a.startOffset ≤ b.startOffset) := by
  intro l
  induction l with
  | nil => simp [sortCandidates]
  | cons c rest ih =>
    show (insertSorted c (sortCandidates rest)).Pairwise _
    exact sorted_insertSorted ih

/-- Every gathered candidate carries a catalog spec and an in-range start. -/
theorem gatherCandidates_mem {bytes : Bytes} :
    ∀ c ∈ gatherCandidates bytes, c.spec ∈ SIGNATURE_SPECS ∧ c.startOffset < bytes.length := by
  intro c hc
  unfold gatherCandidates at hc
  simp only at hc
  rw [mem_sortCandidates] at hc
  have main := foldl_invariant
    (fun (acc : List Candidate × List (CarvedPayloadKind × Nat)) =>
      ∀ d ∈ acc.1, d.spec ∈ SIGNATURE_SPECS ∧ d.startOffset < bytes.length)
    (fun acc offset => SIGNATURE_SPECS.foldl
      (fun (acc : List Candidate × List (CarvedPayloadKind × Nat)) spec =>
        if spec.matchAt bytes offset then
          if (spec.kind, offset) ∈ acc.2 then acc
          else (acc.1 ++ [{ spec := spec, startOffset := offset }], (spec.kind, offset) :: acc.2)
        else acc)
      acc)
    (List.range bytes.length) ([], []) (by simp)
    (fun acc offset hoff hacc => by
      refine foldl_invariant
        (fun (acc2 : List Candidate × List (CarvedPayloadKind × Nat)) =>
          ∀ d ∈ acc2.1, d.spec ∈ SIGNATURE_SPECS ∧ d.startOffset < bytes.length)
        _ SIGNATURE_SPECS acc hacc (fun acc2 spec hspec hacc2 => ?_)
      split
      · split
        · exact hacc2
        · intro d hd
          rcases List.mem_append.mp hd with hd | hd
          · exact hacc2 d hd
          · rcases List.mem_singleton.mp hd with rfl
            exact ⟨hspec, List.mem_range.mp hoff⟩
      · exact hacc2)
  exact main c hc

theorem sorted_gatherCandidates {bytes : Bytes} :
    (gatherCandidates bytes).Pairwise (fun a b => a.startOffset ≤ b.startOffset) := by
  unfold gatherCandidates
  exact sorted_sortCandidates

/-- On an ascending offset list, `findNextCandidateOffset` returns the least
offset strictly above the current one. -/
theorem findNextCandidateOffset_least {l : List Nat} {x y : Nat}
    (hs : l.Pairwise (fun a b => a ≤ b)) (h : findNextCandidateOffset l x = some y) :
    y ∈ l ∧ x < y ∧ ∀ z ∈ l, x < z → y ≤ z := by
  induction l with
  | nil => simp [findNextCandidateOffset] at h
  | cons a rest ih =>
    rw [List.pairwise_cons] at hs
    unfold findNextCandidateOffset at h
    rw [List.find?_cons] at h
    split at h
    · next hxa =>
      cases h
      refine ⟨by simp, by simpa using hxa, ?_⟩
      intro z hz _
      rcases List.mem_cons.mp hz with rfl | hz
      · exact Nat.le_refl _
      · exact hs.1 z hz
    · next hxa =>
      have := ih hs.2 h
      refine ⟨List.mem_cons_of_mem a this.1, this.2.1, ?_⟩
      intro z hz hxz
      rcases List.mem_cons.mp hz with rfl | hz
      · simp at hxa; omega
      · exact this.2.2 z hz hxz

theorem findNextCandidateOffset_none {l : List Nat} {x : Nat}
    (h : findNextCandidateOffset l x = none) : ∀ z ∈ l, z ≤ x := by
  intro z hz
  unfold findNextCandidateOffset at h
  have := List.find?_eq_none.mp h z hz
  simpa using this

theorem findNextCandidateOffset_mem {l : List Nat} {x y : Nat}
    (h : findNextCandidateOffset l x = some y) : y ∈ l ∧ x < y := by
  unfold findNextCandidateOffset at h
  refine ⟨List.mem_of_find?_eq_some h, ?_⟩
  have := List.find?_some h
  simpa using this

/-- What `resolveCandidate` guarantees about an accepted span. -/
theorem resolveCandidate_some_bounds {bytes : Bytes} {offsets : List Nat} {c : Candidate}
    {e : Nat} {conf : PayloadConfidence} {strat : String}
    (hoff : ∀ o ∈ offsets, o < bytes.length)
    (h : resolveCandidate bytes offsets c = some (e, conf, strat)) :
    c.startOffset < e ∧ e ≤ bytes.length := by
  unfold resolveCandidate at h
  have fallback_case : ∀ (hf : (fallbackSpan bytes offsets c.startOffset).map
      (fun e => (e, PayloadConfidence.low, FALLBACK_STRATEGY)) = some (e, conf, strat)),
      c.startOffset < e ∧ e ≤ bytes.length := by
    intro hf
    rcases Option.map_eq_some'.mp hf with ⟨fe, hfe, heq⟩
    cases heq
    simp only [fallbackSpan] at hfe
    split at hfe
    · cases hfe
    · next hgt =>
      cases hfe
      refine ⟨by omega, ?_⟩
      cases hnext : findNextCandidateOffset offsets c.startOffset with
      | none => simp [hnext]
      | some o =>
        have := (findNextCandidateOffset_mem hnext).1
        simp only [hnext, Option.getD_some]
        exact (hoff o this).le
  split at h
  · exact fallback_case h
  · split at h
    · next hvalid =>
      cases h
      exact hvalid
    · exact fallback_case h

/-- Generic invariant transfer through the carving loop. -/
theorem carveLoop_forall {bytes : Bytes} {offsets : List Nat} {maxF : Nat}
    (P : CarvedPayload → Prop) :
    ∀ (cands : List Candidate) (found : List CarvedPayload) (seen : List String),
      (∀ c ∈ cands, ∀ e conf strat,
        resolveCandidate bytes offsets c = some (e, conf, strat) →
        P { id := payloadKey c.spec.kind c.startOffset e, kind := c.spec.kind,
            label := c.spec.label, extension := c.spec.extension,
            mimeType := c.spec.mimeType, signature := c.spec.signature,
            startOffset := c.startOffset, endOffset := e,
            byteLength := e - c.startOffset, confidence := conf, strategy := strat }) →
      (∀ p ∈ found, P p) →
      ∀ p ∈ carveLoop bytes offsets maxF cands found seen, P p := by
  intro cands
  induction cands with
  | nil =>
    intro found seen _ hfound p hp
    exact hfound p hp
  | cons c rest ih =>
    intro found seen hnew hfound p hp
    have hnew_rest : ∀ c' ∈ rest, ∀ e conf strat,
        resolveCandidate bytes offsets c' = some (e, conf, strat) → P _ :=
      fun c' hc' => hnew c' (List.mem_cons_of_mem c hc')
    unfold carveLoop at hp
    cases hres : resolveCandidate bytes offsets c with
    | none =>
      rw [hres] at hp
      exact ih found seen hnew_rest hfound p hp
    | some r =>
      obtain ⟨e, conf, strat⟩ := r
      rw [hres] at hp
      simp only at hp
      split at hp
      · exact ih found seen hnew_rest hfound p hp
      · have hP := hnew c (by simp) e conf strat hres
        split at hp
        · rcases List.mem_append.mp hp with hp | hp
          · exact hfound p hp
          · rcases List.mem_singleton.mp hp with rfl
            exact hP
        · refine ih _ _ hnew_rest ?_ p hp
          intro q hq
          rcases List.mem_append.mp hq with hq | hq
          · exact hfound q hq
          · rcases List.mem_singleton.mp hq with rfl
            exact hP

/-- Every payload in `detectCarvedPayloads` arises from a gathered candidate
via `resolveCandidate`. -/
theorem detectCarvedPayloads_forall (P : CarvedPayload → Prop) (bytes : Bytes)
    (options : PayloadCarvingOptions)
    (hnew : ∀ c ∈ gatherCandidates bytes, ∀ e conf strat,
      resolveCandidate bytes ((gatherCandidates bytes).map (fun c => c.startOffset)) c
        = some (e, conf, strat) →
      P { id := payloadKey c.spec.kind c.startOffset e, kind := c.spec.kind,
          label := c.spec.label, extension := c.spec.extension,
          mimeType := c.spec.mimeType, signature := c.spec.signature,
          startOffset := c.startOffset, endOffset := e,
          byteLength := e - c.startOffset, confidence := conf, strategy := strat }) :
    ∀ p ∈ detectCarvedPayloads bytes options, P p := by
  intro p hp
  unfold detectCarvedPayloads at hp
  split at hp
  · simp at hp
  · simp only at hp
    split at hp
    · simp at hp
    · split at hp
      · simp at hp
      · exact carveLoop_forall P _ [] [] hnew (by simp) p hp

/-- Per-kind dispatch of the catalog's end detectors. -/
def findEndFor : CarvedPayloadKind → Bytes → Nat → Option Nat
  | .png => findPngEnd
  | .jpeg => findJpegEnd
  | .gif => findGifEnd
  | .webp => findWebpEnd
  | .bmp => findBmpEnd
  | .tiff => fun _ _ => none
  | .pdf => findPdfEnd
  | .zip => findZipEnd

theorem spec_findEnd_eq {s : SignatureSpec} (hs : s ∈ SIGNATURE_SPECS) :
    s.findEnd = findEndFor s.kind := by
  simp only [SIGNATURE_SPECS, List.mem_cons, List.not_mem_nil, or_false] at hs
  rcases hs with rfl | rfl | rfl | rfl | rfl | rfl | rfl | rfl <;> rfl

theorem candidateOffsets_lt {bytes : Bytes} :
    ∀ o ∈ (gatherCandidates bytes).map (fun c => c.startOffset), o < bytes.length := by
  intro o ho
  rcases List.mem_map.mp ho with ⟨d, hd, rfl⟩
  exact (gatherCandidates_mem d hd).2

/-- Characterisation of the fallback span: least candidate start strictly
above the current one, else the buffer length. -/
theorem fallbackSpan_char {bytes : Bytes} {start e : Nat}
    (h : fallbackSpan bytes ((gatherCandidates bytes).map (fun c => c.startOffset)) start
      = some e) :
    (∃ c ∈ gatherCandidates bytes, c.startOffset = e ∧ start < c.startOffset ∧
       ∀ c' ∈ gatherCandidates bytes, start < c'.startOffset → e ≤ c'.startOffset) ∨
    ((∀ c ∈ gatherCandidates bytes, c.startOffset ≤ start) ∧ e = bytes.length) := by
  have hsorted : ((gatherCandidates bytes).map (fun c => c.startOffset)).Pairwise
      (fun a b => a ≤ b) := List.pairwise_map.mpr sorted_gatherCandidates
  simp only [fallbackSpan] at h
  split at h
  · cases h
  · cases h
    cases hnext : findNextCandidateOffset
        ((gatherCandidates bytes).map (fun c => c.startOffset)) start with
    | none =>
      right
      simp only [Option.getD_none]
      refine ⟨?_, trivial⟩
      intro c hc
      exact findNextCandidateOffset_none hnext c.startOffset
        (List.mem_map_of_mem _ hc)
    | some y =>
      left
      simp only [Option.getD_some]
      obtain ⟨hy_mem, hy_gt, hy_least⟩ := findNextCandidateOffset_least hsorted hnext
      rcases List.mem_map.mp hy_mem with ⟨c, hc, rfl⟩
      refine ⟨c, hc, rfl, hy_gt, ?_⟩
      intro c' hc' hlt
      exact hy_least c'.startOffset (List.mem_map_of_mem _ hc') hlt

/-- Claim C1: every carved payload satisfies
`0 ≤ startOffset < endOffset ≤ buffer.length` and
`byteLength = endOffset - startOffset`. -/
theorem detectCarvedPayloads_span_invariant (bytes : Bytes)
    (options : PayloadCarvingOptions) (p : CarvedPayload)
    (hp : p ∈ detectCarvedPayloads bytes options) :
    p.startOffset < p.endOffset ∧ p.endOffset ≤ bytes.length ∧
      p.byteLength = p.endOffset - p.startOffset := by
  refine detectCarvedPayloads_forall
    (fun q => q.startOffset < q.endOffset ∧ q.endOffset ≤ bytes.length ∧
      q.byteLength = q.endOffset - q.startOffset) bytes options ?_ p hp
  intro c _ e conf strat hres
  have := resolveCandidate_some_bounds candidateOffsets_lt hres
  exact ⟨this.1, this.2, rfl⟩

def tiffPayload0 : CarvedPayload :=
  { id := "tiff|0|8", kind := .tiff, label := "TIFF image", extension := "tiff",
    mimeType := "image/tiff", signature := "TIFF byte-order header",
    startOffset := 0, endOffset := 8, byteLength := 8, confidence := .low,
    strategy := FALLBACK_STRATEGY }

/-- Witness for C1 at the concrete two-TIFF buffer. -/
theorem detectCarvedPayloads_span_invariant_witness :
    tiffPayload0 ∈ detectCarvedPayloads tiffFallbackBuf {} ∧
      tiffPayload0.startOffset < tiffPayload0.endOffset ∧
      tiffPayload0.endOffset ≤ tiffFallbackBuf.length ∧
      tiffPayload0.byteLength = tiffPayload0.endOffset - tiffPayload0.startOffset := by
  have hmem : tiffPayload0 ∈ detectCarvedPayloads tiffFallbackBuf {} := by decide
  exact ⟨hmem, detectCarvedPayloads_span_invariant tiffFallbackBuf {} tiffPayload0 hmem⟩

/-- The confidence/end rules claim C2 asserts for one payload. -/
def ConfidenceSpec (bytes : Bytes) (q : CarvedPayload) : Prop :=
  q.startOffset < q.endOffset ∧
  (∀ e, findEndFor q.kind bytes q.startOffset = some e →
    q.startOffset < e → e ≤ bytes.length →
    q.endOffset = e ∧
      q.confidence = (if q.kind = CarvedPayloadKind.pdf then PayloadConfidence.medium
        else PayloadConfidence.high)) ∧
  ((findEndFor q.kind bytes q.startOffset = none ∨
    (∃ e, findEndFor q.kind bytes q.startOffset = some e ∧
      (e ≤ q.startOffset ∨ bytes.length < e))) →
    q.confidence = PayloadConfidence.low ∧
    ((∃ c ∈ gatherCandidates bytes, c.startOffset = q.endOffset ∧
        q.startOffset < c.startOffset ∧
        ∀ c' ∈ gatherCandidates bytes, q.startOffset < c'.startOffset →
          q.endOffset ≤ c'.startOffset) ∨
     ((∀ c ∈ gatherCandidates bytes, c.startOffset ≤ q.startOffset) ∧
      q.endOffset = bytes.length)))

/-- Claim C2: detector-derived ends give confidence high (medium for PDF);
failed or invalid detections fall back to the least candidate start strictly
above the payload's own start (or the buffer length), at confidence low, and
only spans with `end > start` are ever emitted; concretely, a TIFF signature,
filler, and a second signature yield a low-confidence TIFF payload ending at
the second signature's start. -/
theorem detectCarvedPayloads_confidence_spec :
    (∀ (bytes : Bytes) (options : PayloadCarvingOptions),
      ∀ p ∈ detectCarvedPayloads bytes options, ConfidenceSpec bytes p) ∧
    (detectCarvedPayloads tiffFallbackBuf {}).map
      (fun p => (p.kind, p.startOffset, p.endOffset, p.confidence)) =
      [(.tiff, 0, 8, .low), (.tiff, 8, 12, .low)] := by
  constructor
  · intro bytes options p hp
    refine detectCarvedPayloads_forall (ConfidenceSpec bytes) bytes options ?_ p hp
    intro c hc e conf strat hres
    have hspec : c.spec ∈ SIGNATURE_SPECS := (gatherCandidates_mem c hc).1
    have hbounds := resolveCandidate_some_bounds candidateOffsets_lt hres
    have hdisp : c.spec.findEnd = findEndFor c.spec.kind := spec_findEnd_eq hspec
    simp only [resolveCandidate, hdisp] at hres
    refine ⟨hbounds.1, ?_, ?_⟩
    · -- detector succeeded with a valid span
      intro e' he' hlt hle
      simp only [ConfidenceSpec] at *
      rw [he'] at hres
      simp only at hres
      rw [if_pos ⟨hlt, hle⟩] at hres
      rw [Option.some_inj] at hres
      obtain ⟨rfl, rfl, rfl⟩ := Prod.mk.injEq .. ▸ hres
      · exact ⟨rfl, rfl⟩
    · -- detector failed or returned an invalid span
      intro hfail
      have hmap : Option.map (fun fe => (fe, PayloadConfidence.low, FALLBACK_STRATEGY))
          (fallbackSpan bytes ((gatherCandidates bytes).map (fun c => c.startOffset))
            c.startOffset) = some (e, conf, strat) := by
        rcases hfail with hnone | ⟨e', he', hbad⟩
        · rw [hnone] at hres
          exact hres
        · have hbad2 : e' ≤ c.startOffset ∨ bytes.length < e' := hbad
          rw [he'] at hres
          simp only at hres
          rw [if_neg (by omega)] at hres
          exact hres
      rcases Option.map_eq_some'.mp hmap with ⟨fe, hfe2, heq⟩
      rw [Prod.mk.injEq, Prod.mk.injEq] at heq
      obtain ⟨rfl, rfl, rfl⟩ := heq
      exact ⟨rfl, fallbackSpan_char hfe2⟩
  · decide

/-- Witness for C2: the first TIFF payload of the two-TIFF buffer obeys the
fallback rules. -/
theorem detectCarvedPayloads_confidence_spec_witness :
    tiffPayload0 ∈ detectCarvedPayloads tiffFallbackBuf {} ∧
      ConfidenceSpec tiffFallbackBuf tiffPayload0 := by
  have hmem : tiffPayload0 ∈ detectCarvedPayloads tiffFallbackBuf {} := by decide
  exact ⟨hmem, detectCarvedPayloads_confidence_spec.1 tiffFallbackBuf {} tiffPayload0 hmem⟩

/-! ## C7: host trailing-data detectors versus the carving detectors -/

theorem findPngContainerEnd_eq (bytes : Bytes) :
    findPngContainerEnd bytes = findPngEnd bytes 0 := by
  unfold findPngContainerEnd findPngEnd pngWalk matchesAt
  rw [trailing_pngStep_eq]
  simp only [Nat.zero_add]
  by_cases h8 : bytes.length < PNG_SIGNATURE.length
  · rw [if_pos h8, if_neg]
    intro hcontra
    rw [Bool.and_eq_true] at hcontra
    have := of_decide_eq_true hcontra.1
    omega
  · rw [if_neg h8]
    have hlen : decide (PNG_SIGNATURE.length ≤ bytes.length) = true := by
      simp only [decide_eq_true_eq]
      omega
    rw [hlen, Bool.true_and]

/-- The JPEG pair agrees whenever the buffer is too short to matter or its
third byte is `0xFF` (the carving detector requires `FF D8 FF`, the host
detector only `FF D8`). -/
theorem findJpegContainerEnd_eq (bytes : Bytes)
    (h : bytes.length ≤ 2 ∨ getB bytes 2 = 0xff) :
    findJpegContainerEnd bytes = findJpegEnd bytes 0 := by
  by_cases hc : bytes.length < 4 ∨ getB bytes 0 ≠ 0xff ∨ getB bytes 1 ≠ 0xd8
  · rw [findJpegContainerEnd, if_pos hc]
    by_cases hh : 0 + 3 ≤ bytes.length ∧ getB bytes 0 = 0xff ∧
        getB bytes (0 + 1) = 0xd8 ∧ getB bytes (0 + 2) = 0xff
    · obtain ⟨h3, hb0, hb1, hb2⟩ := hh
      have hlen3 : bytes.length = 3 := by
        rcases hc with hlt | hne | hne
        · omega
        · exact absurd hb0 hne
        · exact absurd hb1 hne
      rw [findJpegEnd, if_pos ⟨h3, hb0, hb1, hb2⟩]
      unfold jpegWalk
      have hstop : jpegStep bytes (0 + 2) = .stop none := by
        unfold jpegStep
        rw [if_neg (by omega)]
      exact (iter_top_stop hstop).symm
    · rw [findJpegEnd, if_neg hh]
  · push_neg at hc
    obtain ⟨h4, hb0, hb1⟩ := hc
    have hb2 : getB bytes 2 = 0xff := by
      rcases h with hlen | hff
      · omega
      · exact hff
    rw [findJpegContainerEnd, if_neg (by push_neg; exact ⟨h4, hb0, hb1⟩)]
    rw [findJpegEnd, if_pos ⟨by omega, hb0, hb1, hb2⟩]
    rw [trailing_jpegStep_eq]
    rfl

/-- Counterexample to C7 as stated: on `FF D8 00 FF D9` the host JPEG
detector returns 5 while the carving detector fails (its signature check
requires a third `0xFF` byte). -/
theorem container_detectors_agree_counterexample :
    findJpegContainerEnd [0xff, 0xd8, 0x00, 0xff, 0xd9] = some 5 ∧
      findJpegEnd [0xff, 0xd8, 0x00, 0xff, 0xd9] 0 = none := by decide

/-- Amended C7: the PNG pair agrees on every buffer; the JPEG pair agrees on
every buffer whose third byte is `0xFF` (or that is shorter than 3 bytes) —
the host detector, unlike the carving one, does not require the third header
byte to be `0xFF`. -/
theorem container_detectors_agree_amended (bytes : Bytes) :
    findPngContainerEnd bytes = findPngEnd bytes 0 ∧
      ((bytes.length ≤ 2 ∨ getB bytes 2 = 0xff) →
        findJpegContainerEnd bytes = findJpegEnd bytes 0) :=
  ⟨findPngContainerEnd_eq bytes, findJpegContainerEnd_eq bytes⟩

/-- Witness for the amended C7 on a tiny `FF D8 FF D9` buffer. -/
theorem container_detectors_agree_amended_witness :
    getB [0xff, 0xd8, 0xff, 0xd9] 2 = 0xff ∧
      findJpegContainerEnd [0xff, 0xd8, 0xff, 0xd9] =
        findJpegEnd [0xff, 0xd8, 0xff, 0xd9] 0 ∧
      findPngContainerEnd [0xff, 0xd8, 0xff, 0xd9] =
        findPngEnd [0xff, 0xd8, 0xff, 0xd9] 0 :=
  ⟨by decide,
   (container_detectors_agree_amended [0xff, 0xd8, 0xff, 0xd9]).2 (Or.inr (by decide)),
   (container_detectors_agree_amended [0xff, 0xd8, 0xff, 0xd9]).1⟩

/-! ## C9: trailing data extraction -/

theorem getB_append_of_lt {b u : Bytes} {i : Nat} (h : i < b.length) :
    getB (b ++ u) i = getB b i := by
  unfold getB
  rw [List.getD_eq_getElem?_getD, List.getD_eq_getElem?_getD, List.getElem?_append,
    if_pos h]

/-- A successful PNG container walk is unaffected by appending bytes. -/
theorem trailing_pngWalk_append {b u : Bytes} :
    ∀ {f off e}, iter (Trailing.pngStep b) f off = some e →
      iter (Trailing.pngStep (b ++ u)) f off = some e := by
  intro f
  induction f with
  | zero => intro off e h; simp [iter] at h
  | succ f ih =>
    intro off e h
    simp only [iter] at h ⊢
    cases hstep : Trailing.pngStep b off with
    | stop r =>
      rw [hstep] at h
      subst h
      suffices hs : Trailing.pngStep (b ++ u) off = .stop (some e) by rw [hs]
      simp only [Trailing.pngStep] at hstep ⊢
      split at hstep
      · next hle =>
        have hread : Trailing.readUint32BE (b ++ u) off = Trailing.readUint32BE b off := by
          unfold Trailing.readUint32BE
          rw [getB_append_of_lt (by omega), getB_append_of_lt (by omega),
            getB_append_of_lt (by omega), getB_append_of_lt (by omega)]
        have hiend : isIendAt (b ++ u) (off + 4) = isIendAt b (off + 4) := by
          unfold isIendAt
          rw [getB_append_of_lt (by omega), getB_append_of_lt (by omega),
            getB_append_of_lt (by omega), getB_append_of_lt (by omega)]
        split at hstep
        · cases hstep
        · split at hstep
          · next hiendb =>
            cases hstep
            rw [if_pos (by simp only [List.length_append]; omega), hread]
            rw [if_neg (by simp only [List.length_append]; omega), hiend, if_pos hiendb]
          · cases hstep
      · cases hstep
    | next o =>
      rw [hstep] at h
      suffices hs : Trailing.pngStep (b ++ u) off = .next o by
        rw [hs]
        exact ih h
      simp only [Trailing.pngStep] at hstep ⊢
      split at hstep
      · next hle =>
        have hread : Trailing.readUint32BE (b ++ u) off = Trailing.readUint32BE b off := by
          unfold Trailing.readUint32BE
          rw [getB_append_of_lt (by omega), getB_append_of_lt (by omega),
            getB_append_of_lt (by omega), getB_append_of_lt (by omega)]
        have hiend : isIendAt (b ++ u) (off + 4) = isIendAt b (off + 4) := by
          unfold isIendAt
          rw [getB_append_of_lt (by omega), getB_append_of_lt (by omega),
            getB_append_of_lt (by omega), getB_append_of_lt (by omega)]
        split at hstep
        · cases hstep
        · next hlt =>
          split at hstep
          · cases hstep
          · next hiendb =>
            cases hstep
            rw [if_pos (by simp only [List.length_append]; omega), hread]
            rw [if_neg (by simp only [List.length_append]; omega), hiend,
              if_neg (by simpa using hiendb)]
      · cases hstep

/-- A complete, trailing-free PNG keeps its container end after bytes are
appended. -/
theorem findPngContainerEnd_append {png extra : Bytes}
    (h : findPngContainerEnd png = some png.length) :
    findPngContainerEnd (png ++ extra) = some png.length := by
  unfold findPngContainerEnd at h ⊢
  split at h
  · cases h
  · next hlen =>
    split at h
    · next hsig =>
      rw [if_neg (by simp only [List.length_append]; omega)]
      have hsig2 : (List.range PNG_SIGNATURE.length).all
          (fun i => getB (png ++ extra) i == getB PNG_SIGNATURE i) = true := by
        rw [List.all_eq_true] at hsig ⊢
        intro i hi
        have hi8 := List.mem_range.mp hi
        rw [getB_append_of_lt (by omega)]
        exact hsig i hi
      rw [if_pos hsig2]
      have happ := @trailing_pngWalk_append png extra (png.length + 1)
        PNG_SIGNATURE.length png.length h
      exact iter_mono happ (by simp only [List.length_append]; omega)
    · cases h

/-- Claim C9: `extractTrailingData` returns a value exactly when the host
detector finds a container end strictly below the buffer length; the value is
the end offset, the residual length, and the byte slice; only PNG and JPEG
formats can produce a value; and appending `N` bytes after a trailing-free
PNG yields exactly those `N` bytes back. -/
theorem extractTrailingData_spec :
    (∀ (bytes : Bytes) (format : SupportedImageFormat) (td : TrailingData),
      extractTrailingData bytes format = some td →
        findContainerEndOffset bytes format = some td.containerEndOffset ∧
        td.containerEndOffset < bytes.length ∧
        td.byteLength = bytes.length - td.containerEndOffset ∧
        td.bytes = bytes.drop td.containerEndOffset) ∧
    (∀ (bytes : Bytes) (format : SupportedImageFormat) (e : Nat),
      findContainerEndOffset bytes format = some e → e < bytes.length →
        extractTrailingData bytes format =
          some { containerEndOffset := e, byteLength := bytes.length - e,
                 bytes := bytes.drop e }) ∧
    (∀ (bytes : Bytes) (format : SupportedImageFormat),
      format ≠ SupportedImageFormat.png → format ≠ SupportedImageFormat.jpeg →
        extractTrailingData bytes format = none) ∧
    (∀ png extra : Bytes, findPngContainerEnd png = some png.length →
      extractTrailingData png SupportedImageFormat.png = none ∧
      (extra ≠ [] → extractTrailingData (png ++ extra) SupportedImageFormat.png =
        some { containerEndOffset := png.length, byteLength := extra.length,
               bytes := extra })) := by
  refine ⟨?_, ?_, ?_, ?_⟩
  · intro bytes format td h
    unfold extractTrailingData at h
    cases hfind : findContainerEndOffset bytes format with
    | none => rw [hfind] at h; cases h
    | some e =>
      rw [hfind] at h
      simp only at h
      split at h
      · cases h
      · next hge =>
        cases h
        refine ⟨rfl, ?_, rfl, rfl⟩
        show e < bytes.length
        omega
  · intro bytes format e hfind hlt
    unfold extractTrailingData
    rw [hfind]
    simp only
    rw [if_neg (by omega)]
  · intro bytes format hpng hjpeg
    unfold extractTrailingData
    have : findContainerEndOffset bytes format = none := by
      cases format with
      | png => exact absurd rfl hpng
      | jpeg => exact absurd rfl hjpeg
      | webp => rfl
      | bmp => rfl
      | tiff => rfl
      | gif => rfl
    rw [this]
  · intro png extra h
    constructor
    · unfold extractTrailingData
      show (match findContainerEndOffset png SupportedImageFormat.png with
        | none => none
        | some e => _) = none
      rw [show findContainerEndOffset png SupportedImageFormat.png =
        some png.length from h]
      simp only
      rw [if_pos (Nat.le_refl _)]
    · intro hne
      unfold extractTrailingData
      rw [show findContainerEndOffset (png ++ extra) SupportedImageFormat.png =
        some png.length from findPngContainerEnd_append h]
      simp only
      have hlt : png.length < (png ++ extra).length := by
        simp only [List.length_append]
        cases extra with
        | nil => exact absurd rfl hne
        | cons x xs => simp
      rw [if_neg (by omega)]
      have hdrop : (png ++ extra).drop png.length = extra := List.drop_left png extra
      have hblen : (png ++ extra).length - png.length = extra.length := by
        simp only [List.length_append]
        omega
      rw [hdrop, hblen]

def minimalPng : Bytes :=
  PNG_SIGNATURE ++ [0, 0, 0, 0, 0x49, 0x45, 0x4e, 0x44, 0, 0, 0, 0]

/-- Witness for C9: the minimal IEND-only PNG with two appended bytes. -/
theorem extractTrailingData_spec_witness :
    findPngContainerEnd minimalPng = some minimalPng.length ∧
      extractTrailingData minimalPng SupportedImageFormat.png = none ∧
      extractTrailingData (minimalPng ++ [0xaa, 0xbb]) SupportedImageFormat.png =
        some { containerEndOffset := minimalPng.length, byteLength := 2,
               bytes := [0xaa, 0xbb] } := by
  have hend : findPngContainerEnd minimalPng = some minimalPng.length := by decide
  have main := extractTrailingData_spec.2.2.2 minimalPng [0xaa, 0xbb] hend
  exact ⟨hend, main.1, main.2 (by decide)⟩

/-! ## C3: the PNG end detector on structured chunk lists -/

theorem getB_append_right (pre l : Bytes) (i : Nat) :
    getB (pre ++ l) (pre.length + i) = getB l i := by
  unfold getB
  rw [List.getD_eq_getElem?_getD, List.getD_eq_getElem?_getD,
    List.getElem?_append_right (by omega), Nat.add_sub_cancel_left]

theorem mul_two_pow_lor_eq_add :
    ∀ (k a b : Nat), b < 2 ^ k → a * 2 ^ k ||| b = a * 2 ^ k + b := by
  intro k
  induction k with
  | zero =>
    intro a b hb
    have hb0 : b = 0 := by omega
    subst hb0
    simp
  | succ k ih =>
    intro a b hb
    have hsplit : a * 2 ^ (k + 1) = Nat.bit false (a * 2 ^ k) := by
      rw [Nat.bit_val]
      simp only [Bool.toNat_false, Nat.add_zero]
      rw [pow_succ]
      ring
    conv_lhs => rw [hsplit, ← Nat.bit_decomp b]
    rw [Nat.lor_bit]
    simp only [Bool.false_or]
    rw [Nat.bit_val, ih a (Nat.div2 b) (by rw [Nat.div2_val]; rw [pow_succ] at hb; omega)]
    rw [Nat.div2_val, ← Nat.mod_two_of_bodd]
    rw [pow_succ]
    have : a * (2 ^ k * 2) = a * 2 ^ k * 2 := by ring
    rw [this]
    omega

theorem readUint32BE_value (b0 b1 b2 b3 : Nat)
    (h1 : b1 < 256) (h2 : b2 < 256) (h3 : b3 < 256) :
    (b0 <<< 24) ||| (b1 <<< 16) ||| (b2 <<< 8) ||| b3 =
      b0 * 2 ^ 24 + b1 * 2 ^ 16 + b2 * 2 ^ 8 + b3 := by
  have e3 : b2 * 2 ^ 8 ||| b3 = b2 * 2 ^ 8 + b3 :=
    mul_two_pow_lor_eq_add 8 b2 b3 (by norm_num; omega)
  have e2 : b1 * 2 ^ 16 ||| (b2 * 2 ^ 8 + b3) = b1 * 2 ^ 16 + (b2 * 2 ^ 8 + b3) :=
    mul_two_pow_lor_eq_add 16 b1 _ (by norm_num; omega)
  have e1 : b0 * 2 ^ 24 ||| (b1 * 2 ^ 16 + (b2 * 2 ^ 8 + b3)) =
      b0 * 2 ^ 24 + (b1 * 2 ^ 16 + (b2 * 2 ^ 8 + b3)) :=
    mul_two_pow_lor_eq_add 24 b0 _ (by norm_num; omega)
  rw [Nat.shiftLeft_eq, Nat.shiftLeft_eq, Nat.shiftLeft_eq]
  rw [Nat.lor_assoc, Nat.lor_assoc]
  rw [e3, e2, e1]
  omega

/-- Big-endian 4-byte encoding, as a PNG writer would produce it. -/
def be32 (n : Nat) : Bytes :=
  [n / 2 ^ 24 % 256, n / 2 ^ 16 % 256, n / 2 ^ 8 % 256, n % 256]

theorem be32_digits_sum (n : Nat) (hn : n < 2 ^ 32) :
    n / 2 ^ 24 % 256 * 2 ^ 24 + n / 2 ^ 16 % 256 * 2 ^ 16 +
      n / 2 ^ 8 % 256 * 2 ^ 8 + n % 256 = n := by
  norm_num
  omega

/-- Reading back a `be32`-encoded value at the junction of a prefix. -/
theorem readUint32BE_be32 (pre tail : Bytes) (n : Nat) (hn : n < 2 ^ 32) :
    readUint32BE (pre ++ (be32 n ++ tail)) pre.length = some n := by
  have hlen : (pre ++ (be32 n ++ tail)).length = pre.length + 4 + tail.length := by
    simp only [List.length_append, be32, List.length_cons, List.length_nil]
    omega
  have r0 : getB (pre ++ (be32 n ++ tail)) (pre.length + 0) = n / 2 ^ 24 % 256 := by
    rw [getB_append_right pre (be32 n ++ tail) 0]
    rfl
  have r1 : getB (pre ++ (be32 n ++ tail)) (pre.length + 1) = n / 2 ^ 16 % 256 := by
    rw [getB_append_right pre (be32 n ++ tail) 1]
    rfl
  have r2 : getB (pre ++ (be32 n ++ tail)) (pre.length + 2) = n / 2 ^ 8 % 256 := by
    rw [getB_append_right pre (be32 n ++ tail) 2]
    rfl
  have r3 : getB (pre ++ (be32 n ++ tail)) (pre.length + 3) = n % 256 := by
    rw [getB_append_right pre (be32 n ++ tail) 3]
    rfl
  rw [Nat.add_zero] at r0
  unfold readUint32BE
  rw [if_pos (by omega)]
  rw [r0, r1, r2, r3]
  rw [readUint32BE_value _ _ _ _ (Nat.mod_lt _ (by norm_num)) (Nat.mod_lt _ (by norm_num))
    (Nat.mod_lt _ (by norm_num))]
  rw [be32_digits_sum n hn]

def IEND_TYPE : Bytes := [0x49, 0x45, 0x4e, 0x44]

/-- A PNG chunk as laid out on disk: `length(4) + type(4) + data + crc(4)`. -/
structure PngChunk where
  typeBytes : Bytes
  data : Bytes
  crc : Bytes

def chunkWf (c : PngChunk) : Prop :=
  c.typeBytes.length = 4 ∧ c.crc.length = 4 ∧ c.data.length < 2 ^ 32

def encodeChunk (c : PngChunk) : Bytes :=
  be32 c.data.length ++ (c.typeBytes ++ (c.data ++ c.crc))

/-- Total framing of a chunk list: `12 + data length` per chunk. -/
def chunksLength (cs : List PngChunk) : Nat :=
  (cs.map (fun c => 12 + c.data.length)).sum

theorem encodeChunk_length {c : PngChunk} (h : chunkWf c) :
    (encodeChunk c).length = 12 + c.data.length := by
  obtain ⟨h1, h2, _⟩ := h
  simp only [encodeChunk, be32, List.length_append, List.length_cons, List.length_nil, h1, h2]
  omega

theorem flatten_encode_length {cs : List PngChunk}
    (h : ∀ c ∈ cs, chunkWf c) : ((cs.map encodeChunk).flatten).length = chunksLength cs := by
  induction cs with
  | nil => simp [chunksLength]
  | cons c cs ih =>
    simp only [List.map_cons, List.flatten_cons, List.length_append, chunksLength,
      List.sum_cons]
    rw [encodeChunk_length (h c (by simp))]
    rw [ih (fun c' hc' => h c' (by simp [hc']))]
    rfl

theorem list_eq_four_of_length {l : Bytes} (h : l.length = 4) :
    ∃ t0 t1 t2 t3, l = [t0, t1, t2, t3] := by
  cases l with
  | nil => simp at h
  | cons a l =>
    cases l with
    | nil => simp at h
    | cons b l =>
      cases l with
      | nil => simp at h
      | cons c l =>
        cases l with
        | nil => simp at h
        | cons d l =>
          cases l with
          | nil => exact ⟨a, b, c, d, rfl⟩
          | cons e l => simp at h

/-- `pngStep` once the chunk length has been read. -/
theorem pngStep_eq_of_read {bytes : Bytes} {off n : Nat}
    (hlen : off + 12 ≤ bytes.length) (hread : readUint32BE bytes off = some n) :
    pngStep bytes off =
      if bytes.length < off + 4 + 4 + n + 4 then .stop none
      else if isIendAt bytes (off + 4) then .stop (some (off + 4 + 4 + n + 4))
      else .next (off + 4 + 4 + n + 4) := by
  unfold pngStep
  rw [if_pos hlen, hread]

/-- `pngStep` at the start of a well-formed chunk. -/
theorem pngStep_chunk (pre rest : Bytes) (c : PngChunk) (hwf : chunkWf c) :
    pngStep (pre ++ (encodeChunk c ++ rest)) pre.length =
      if c.typeBytes = IEND_TYPE
      then StepRes.stop (some (pre.length + (12 + c.data.length)))
      else StepRes.next (pre.length + (12 + c.data.length)) := by
  obtain ⟨hty, hcrc, hdata⟩ := hwf
  rcases c with ⟨ty, data, crc⟩
  simp only at hty hcrc hdata
  obtain ⟨t0, t1, t2, t3, rfl⟩ := list_eq_four_of_length hty
  have hassoc : encodeChunk ⟨[t0, t1, t2, t3], data, crc⟩ ++ rest =
      be32 data.length ++ (([t0, t1, t2, t3] : Bytes) ++ (data ++ (crc ++ rest))) := by
    simp [encodeChunk, List.append_assoc]
  rw [hassoc]
  have hlen : (pre ++ (be32 data.length ++
      (([t0, t1, t2, t3] : Bytes) ++ (data ++ (crc ++ rest))))).length
      = pre.length + (12 + data.length) + rest.length := by
    simp only [List.length_append, be32, List.length_cons, List.length_nil]
    omega
  have hread := readUint32BE_be32 pre
    (([t0, t1, t2, t3] : Bytes) ++ (data ++ (crc ++ rest))) data.length hdata
  rw [pngStep_eq_of_read (by omega) hread]
  rw [if_neg (by omega)]
  have e1 : pre.length + 4 + 1 = pre.length + 5 := by omega
  have e2 : pre.length + 4 + 2 = pre.length + 6 := by omega
  have e3 : pre.length + 4 + 3 = pre.length + 7 := by omega
  have hiendIff : isIendAt (pre ++ (be32 data.length ++
      (([t0, t1, t2, t3] : Bytes) ++ (data ++ (crc ++ rest))))) (pre.length + 4) = true ↔
      ([t0, t1, t2, t3] : Bytes) = IEND_TYPE := by
    unfold isIendAt
    rw [e1, e2, e3]
    have g4 : getB (pre ++ (be32 data.length ++
        (([t0, t1, t2, t3] : Bytes) ++ (data ++ (crc ++ rest))))) (pre.length + 4) = t0 := by
      rw [getB_append_right pre (be32 data.length ++
        (([t0, t1, t2, t3] : Bytes) ++ (data ++ (crc ++ rest)))) 4]
      rfl
    have g5 : getB (pre ++ (be32 data.length ++
        (([t0, t1, t2, t3] : Bytes) ++ (data ++ (crc ++ rest))))) (pre.length + 5) = t1 := by
      rw [getB_append_right pre (be32 data.length ++
        (([t0, t1, t2, t3] : Bytes) ++ (data ++ (crc ++ rest)))) 5]
      rfl
    have g6 : getB (pre ++ (be32 data.length ++
        (([t0, t1, t2, t3] : Bytes) ++ (data ++ (crc ++ rest))))) (pre.length + 6) = t2 := by
      rw [getB_append_right pre (be32 data.length ++
        (([t0, t1, t2, t3] : Bytes) ++ (data ++ (crc ++ rest)))) 6]
      rfl
    have g7 : getB (pre ++ (be32 data.length ++
        (([t0, t1, t2, t3] : Bytes) ++ (data ++ (crc ++ rest))))) (pre.length + 7) = t3 := by
      rw [getB_append_right pre (be32 data.length ++
        (([t0, t1, t2, t3] : Bytes) ++ (data ++ (crc ++ rest)))) 7]
      rfl
    rw [g4, g5, g6, g7]
    simp only [IEND_TYPE, Bool.and_eq_true, beq_iff_eq, List.cons.injEq, and_true]
    tauto
  have harith : pre.length + 4 + 4 + data.length + 4 = pre.length + (12 + data.length) := by
    omega
  rw [harith]
  by_cases hI : ([t0, t1, t2, t3] : Bytes) = IEND_TYPE
  · rw [if_pos (hiendIff.mpr hI), if_pos hI]
  · rw [if_neg (fun hc => hI (hiendIff.mp hc)), if_neg hI]

/-- Walking past a list of well-formed non-IEND chunks. -/
theorem pngWalk_chunks (b : Bytes) :
    ∀ (cs : List PngChunk) (pre rest : Bytes),
      b = pre ++ ((cs.map encodeChunk).flatten ++ rest) →
      (∀ c ∈ cs, chunkWf c ∧ c.typeBytes ≠ IEND_TYPE) →
      pngWalk b pre.length = pngWalk b (pre.length + chunksLength cs) := by
  intro cs
  induction cs with
  | nil =>
    intro pre rest hb _
    simp [chunksLength]
  | cons c cs ih =>
    intro pre rest hb hwf
    have hwfc := hwf c (by simp)
    have hb' : b = pre ++ (encodeChunk c ++ ((cs.map encodeChunk).flatten ++ rest)) := by
      rw [hb]
      simp [List.append_assoc]
    have hstep : pngStep b pre.length = .next (pre.length + (12 + c.data.length)) := by
      rw [hb', pngStep_chunk pre _ c hwfc.1, if_neg hwfc.2]
    have hwalk : pngWalk b pre.length = pngWalk b (pre.length + (12 + c.data.length)) := by
      unfold pngWalk
      exact iter_top_next (pngStep_next_bound b) hstep
    rw [hwalk]
    have hpre' : (pre ++ encodeChunk c).length = pre.length + (12 + c.data.length) := by
      rw [List.length_append, encodeChunk_length hwfc.1]
    have hb2 : b = (pre ++ encodeChunk c) ++ ((cs.map encodeChunk).flatten ++ rest) := by
      rw [hb']
      simp [List.append_assoc]
    have hrec := ih (pre ++ encodeChunk c) rest hb2 (fun c' hc' => hwf c' (by simp [hc']))
    rw [hpre'] at hrec
    rw [hrec]
    have hcl : chunksLength (c :: cs) = (12 + c.data.length) + chunksLength cs := by
      simp [chunksLength]
    rw [hcl, Nat.add_assoc]

/-- The PNG signature matches at the junction of a prefix. -/
theorem matchesAt_png_sig (pre tail : Bytes) :
    matchesAt (pre ++ (PNG_SIGNATURE ++ tail)) pre.length PNG_SIGNATURE = true := by
  unfold matchesAt
  rw [Bool.and_eq_true]
  constructor
  · simp only [decide_eq_true_eq, List.length_append, PNG_SIGNATURE, List.length_cons,
      List.length_nil]
    omega
  · rw [List.all_eq_true]
    intro i hi
    have hi8 : i < PNG_SIGNATURE.length := List.mem_range.mp hi
    rw [getB_append_right pre (PNG_SIGNATURE ++ tail) i, getB_append_of_lt hi8]
    simp

/-- Claim C3: the PNG end detector walks length-prefixed chunks after the
8-byte signature and (i) fails when the signature does not match, (ii) on a
buffer of well-formed non-IEND chunks followed by an IEND chunk returns the
offset just past the IEND chunk's CRC, i.e. signature length plus the sum of
all chunk framing, (iii) fails when a declared chunk length would run past
the buffer, and (iv) fails when the buffer ends before any IEND chunk. -/
theorem findPngEnd_spec :
    (∀ (bytes : Bytes) (s : Nat), matchesAt bytes s PNG_SIGNATURE = false →
      findPngEnd bytes s = none) ∧
    (∀ (pre rest : Bytes) (cs : List PngChunk) (iend : PngChunk),
      (∀ c ∈ cs, chunkWf c ∧ c.typeBytes ≠ IEND_TYPE) →
      chunkWf iend → iend.typeBytes = IEND_TYPE →
      findPngEnd (pre ++ (PNG_SIGNATURE ++ ((cs.map encodeChunk).flatten ++
          (encodeChunk iend ++ rest)))) pre.length
        = some (pre.length + 8 + chunksLength cs + (12 + iend.data.length))) ∧
    (∀ (pre tb short : Bytes) (cs : List PngChunk) (L : Nat),
      (∀ c ∈ cs, chunkWf c ∧ c.typeBytes ≠ IEND_TYPE) →
      tb.length = 4 → L < 2 ^ 32 → 4 ≤ short.length → 8 + short.length < 12 + L →
      findPngEnd (pre ++ (PNG_SIGNATURE ++ ((cs.map encodeChunk).flatten ++
          (be32 L ++ (tb ++ short))))) pre.length = none) ∧
    (∀ (pre rest : Bytes) (cs : List PngChunk),
      (∀ c ∈ cs, chunkWf c ∧ c.typeBytes ≠ IEND_TYPE) →
      rest.length < 12 →
      findPngEnd (pre ++ (PNG_SIGNATURE ++ ((cs.map encodeChunk).flatten ++ rest)))
        pre.length = none) := by
  have walk_to_chunks : ∀ (pre tail2 : Bytes) (cs : List PngChunk),
      (∀ c ∈ cs, chunkWf c ∧ c.typeBytes ≠ IEND_TYPE) →
      findPngEnd (pre ++ (PNG_SIGNATURE ++ ((cs.map encodeChunk).flatten ++ tail2)))
          pre.length
        = pngWalk (pre ++ (PNG_SIGNATURE ++ ((cs.map encodeChunk).flatten ++ tail2)))
            ((pre ++ PNG_SIGNATURE) ++ (cs.map encodeChunk).flatten).length := by
    intro pre tail2 cs hwfs
    unfold findPngEnd
    rw [if_pos (matchesAt_png_sig pre ((cs.map encodeChunk).flatten ++ tail2))]
    have hb : pre ++ (PNG_SIGNATURE ++ ((cs.map encodeChunk).flatten ++ tail2)) =
        (pre ++ PNG_SIGNATURE) ++ ((cs.map encodeChunk).flatten ++ tail2) := by
      simp [List.append_assoc]
    have h8 : pre.length + PNG_SIGNATURE.length = (pre ++ PNG_SIGNATURE).length := by
      rw [List.length_append]
    rw [h8]
    rw [pngWalk_chunks _ cs (pre ++ PNG_SIGNATURE) tail2 hb hwfs]
    have h9 : (pre ++ PNG_SIGNATURE).length + chunksLength cs =
        ((pre ++ PNG_SIGNATURE) ++ (cs.map encodeChunk).flatten).length := by
      simp only [List.length_append]
      rw [flatten_encode_length (fun c hc => (hwfs c hc).1)]
    rw [h9]
  refine ⟨?_, ?_, ?_, ?_⟩
  · intro bytes s h
    unfold findPngEnd
    rw [if_neg (by simp [h])]
  · intro pre rest cs iend hwfs hiwf hitype
    rw [walk_to_chunks pre (encodeChunk iend ++ rest) cs hwfs]
    have hb2 : pre ++ (PNG_SIGNATURE ++ ((cs.map encodeChunk).flatten ++
        (encodeChunk iend ++ rest))) =
        ((pre ++ PNG_SIGNATURE) ++ (cs.map encodeChunk).flatten) ++
          (encodeChunk iend ++ rest) := by
      simp [List.append_assoc]
    have hstep := pngStep_chunk ((pre ++ PNG_SIGNATURE) ++ (cs.map encodeChunk).flatten)
      rest iend hiwf
    rw [if_pos hitype] at hstep
    unfold pngWalk
    rw [hb2, iter_top_stop hstep]
    have hlen2 : ((pre ++ PNG_SIGNATURE) ++ (cs.map encodeChunk).flatten).length =
        pre.length + 8 + chunksLength cs := by
      rw [List.length_append, List.length_append,
        flatten_encode_length (fun c hc => (hwfs c hc).1)]
      rfl
    rw [hlen2]
  · intro pre tb short cs L hwfs htb hL hshort hpast
    rw [walk_to_chunks pre (be32 L ++ (tb ++ short)) cs hwfs]
    have hb2 : pre ++ (PNG_SIGNATURE ++ ((cs.map encodeChunk).flatten ++
        (be32 L ++ (tb ++ short)))) =
        ((pre ++ PNG_SIGNATURE) ++ (cs.map encodeChunk).flatten) ++
          (be32 L ++ (tb ++ short)) := by
      simp [List.append_assoc]
    rw [hb2]
    have hread := readUint32BE_be32
      ((pre ++ PNG_SIGNATURE) ++ (cs.map encodeChunk).flatten) (tb ++ short) L hL
    have hlenB : (((pre ++ PNG_SIGNATURE) ++ (cs.map encodeChunk).flatten) ++
        (be32 L ++ (tb ++ short))).length =
        ((pre ++ PNG_SIGNATURE) ++ (cs.map encodeChunk).flatten).length +
          8 + short.length := by
      simp only [List.length_append, be32, List.length_cons, List.length_nil, htb]
      omega
    have hstep := @pngStep_eq_of_read
      (((pre ++ PNG_SIGNATURE) ++ (cs.map encodeChunk).flatten) ++
        (be32 L ++ (tb ++ short)))
      ((pre ++ PNG_SIGNATURE) ++ (cs.map encodeChunk).flatten).length L
      (by omega) hread
    rw [if_pos (by omega)] at hstep
    unfold pngWalk
    rw [iter_top_stop hstep]
  · intro pre rest cs hwfs hrest
    rw [walk_to_chunks pre rest cs hwfs]
    have hb2 : pre ++ (PNG_SIGNATURE ++ ((cs.map encodeChunk).flatten ++ rest)) =
        ((pre ++ PNG_SIGNATURE) ++ (cs.map encodeChunk).flatten) ++ rest := by
      simp [List.append_assoc]
    rw [hb2]
    have hstep : pngStep (((pre ++ PNG_SIGNATURE) ++ (cs.map encodeChunk).flatten) ++ rest)
        (((pre ++ PNG_SIGNATURE) ++ (cs.map encodeChunk).flatten)).length = .stop none := by
      unfold pngStep
      rw [if_neg (by simp only [List.length_append]; omega)]
    unfold pngWalk
    rw [iter_top_stop hstep]

def ihdrChunk : PngChunk := ⟨[0x49, 0x48, 0x44, 0x52], [1, 2, 3], [9, 9, 9, 9]⟩
def iendChunk : PngChunk := ⟨IEND_TYPE, [], [0, 0, 0, 0]⟩

/-- Witness for C3 on a concrete IHDR-then-IEND buffer with trailing junk. -/
theorem findPngEnd_spec_witness :
    findPngEnd ([] ++ (PNG_SIGNATURE ++ (([ihdrChunk].map encodeChunk).flatten ++
        (encodeChunk iendChunk ++ [0xde, 0xad])))) ([] : Bytes).length
      = some (([] : Bytes).length + 8 + chunksLength [ihdrChunk] +
          (12 + iendChunk.data.length)) :=
  findPngEnd_spec.2.1 [] [0xde, 0xad] [ihdrChunk] iendChunk
    (by
      intro c hc
      rcases List.mem_singleton.mp hc with rfl
      exact ⟨⟨by decide, by decide, by decide⟩, by decide⟩)
    ⟨by decide, by decide, by decide⟩ rfl

/-! ## C4: the JPEG end detector -/

/-- Standalone JPEG markers carrying no length field. -/
def isStandaloneMarker (marker : Nat) : Prop :=
  marker = 0xd8 ∨ marker = 0x01 ∨ (0xd0 ≤ marker ∧ marker ≤ 0xd7)

instance (marker : Nat) : Decidable (isStandaloneMarker marker) := by
  unfold isStandaloneMarker
  infer_instance

/-- Byte runs that can appear inside entropy-coded data without ending the
scan: plain non-`0xFF` bytes and stuffed `FF 00` pairs. -/
inductive EntropyRun : Bytes → Prop where
  | nil : EntropyRun []
  | byte {c : Nat} {r : Bytes} : c ≠ 0xff → EntropyRun r → EntropyRun (c :: r)
  | stuffed {r : Bytes} : EntropyRun r → EntropyRun (0xff :: 0x00 :: r)

/-- The `skipFF` padding-skip loop: everything strictly before the result is
`0xFF`, the result is past the start, and (in range) is not `0xFF`. -/
theorem skipFF_spec (bytes : Bytes) (off : Nat) :
    off ≤ skipFF bytes off ∧
      (∀ i, off ≤ i → i < skipFF bytes off → getB bytes i = 0xff) ∧
      (skipFF bytes off < bytes.length → getB bytes (skipFF bytes off) ≠ 0xff) := by
  suffices h : ∀ fuel off, bytes.length - off < fuel →
      off ≤ skipFFAux bytes fuel off ∧
        (∀ i, off ≤ i → i < skipFFAux bytes fuel off → getB bytes i = 0xff) ∧
        (skipFFAux bytes fuel off < bytes.length →
          getB bytes (skipFFAux bytes fuel off) ≠ 0xff) by
    exact h (bytes.length + 1) off (by omega)
  intro fuel
  induction fuel with
  | zero => intro off h; omega
  | succ fuel ih =>
    intro off hfb
    by_cases hcond : off < bytes.length ∧ getB bytes off = 0xff
    · have hgo : skipFFAux bytes (fuel + 1) off = skipFFAux bytes fuel (off + 1) := by
        simp only [skipFFAux]
        rw [if_pos (by
          simp only [Bool.and_eq_true, decide_eq_true_eq, beq_iff_eq]
          exact hcond)]
      obtain ⟨ih1, ih2, ih3⟩ := ih (off + 1) (by omega)
      rw [hgo]
      refine ⟨by omega, ?_, ih3⟩
      intro i hi1 hi2
      rcases Nat.eq_or_lt_of_le hi1 with rfl | hi1
      · exact hcond.2
      · exact ih2 i hi1 hi2
    · have hstop : skipFFAux bytes (fuel + 1) off = off := by
        simp only [skipFFAux]
        rw [if_neg (by
          simp only [Bool.and_eq_true, decide_eq_true_eq, beq_iff_eq]
          exact hcond)]
      rw [hstop]
      refine ⟨Nat.le_refl off, fun i h1 h2 => by omega, ?_⟩
      intro hlt hff
      exact hcond ⟨hlt, hff⟩

/-- Walking a stuffed entropy run followed by `FF D9` ends just past the EOI
marker. -/
theorem jpegWalk_entropy (b rest : Bytes) :
    ∀ {e : Bytes}, EntropyRun e → ∀ pre : Bytes,
      b = pre ++ (e ++ (0xff :: 0xd9 :: rest)) →
      jpegWalk b pre.length = some (pre.length + e.length + 2) := by
  intro e he
  induction he with
  | nil =>
    intro pre hb
    have hlen : b.length = pre.length + 2 + rest.length := by
      rw [hb]
      simp only [List.nil_append, List.length_append, List.length_cons]
      omega
    have hr0 : getB b pre.length = 0xff := by
      rw [hb]
      have := getB_append_right pre ([] ++ (0xff :: 0xd9 :: rest)) 0
      rwa [Nat.add_zero] at this
    have hr1 : getB b (pre.length + 1) = 0xd9 := by
      rw [hb]
      exact getB_append_right pre ([] ++ (0xff :: 0xd9 :: rest)) 1
    have hstep : jpegStep b pre.length = .stop (some (pre.length + 1 + 1)) := by
      simp only [jpegStep]
      rw [if_pos (by omega), if_neg (not_not_intro hr0)]
      rw [skipFF_stop (Or.inr (by rw [hr1]; norm_num))]
      rw [if_neg (by omega), if_neg (by rw [hr1]; norm_num), if_pos hr1]
    unfold jpegWalk
    rw [iter_top_stop hstep]
    simp
  | @byte c r hc _ ih =>
    intro pre hb
    have hb2 : b = (pre ++ [c]) ++ (r ++ (0xff :: 0xd9 :: rest)) := by
      rw [hb]
      simp [List.append_assoc]
    have hlen : b.length = pre.length + 1 + r.length + 2 + rest.length := by
      rw [hb]
      simp only [List.length_append, List.length_cons]
      omega
    have hr0 : getB b pre.length = c := by
      rw [hb]
      have := getB_append_right pre ((c :: r) ++ (0xff :: 0xd9 :: rest)) 0
      rwa [Nat.add_zero] at this
    have hstep : jpegStep b pre.length = .next (pre.length + 1) := by
      simp only [jpegStep]
      rw [if_pos (by omega), if_pos (by rw [hr0]; exact hc)]
    have hwalk : jpegWalk b pre.length = jpegWalk b (pre.length + 1) := by
      unfold jpegWalk
      exact iter_top_next (jpegStep_next_bound b) hstep
    rw [hwalk]
    have hrec := ih (pre ++ [c]) hb2
    have h1 : (pre ++ [c]).length = pre.length + 1 := by simp
    rw [h1] at hrec
    rw [hrec]
    congr 1
    simp only [List.length_cons]
    omega
  | @stuffed r _ ih =>
    intro pre hb
    have hb2 : b = (pre ++ [0xff, 0x00]) ++ (r ++ (0xff :: 0xd9 :: rest)) := by
      rw [hb]
      simp [List.append_assoc]
    have hlen : b.length = pre.length + 2 + r.length + 2 + rest.length := by
      rw [hb]
      simp only [List.length_append, List.length_cons]
      omega
    have hr0 : getB b pre.length = 0xff := by
      rw [hb]
      have := getB_append_right pre ((0xff :: 0x00 :: r) ++ (0xff :: 0xd9 :: rest)) 0
      rwa [Nat.add_zero] at this
    have hr1 : getB b (pre.length + 1) = 0x00 := by
      rw [hb]
      exact getB_append_right pre ((0xff :: 0x00 :: r) ++ (0xff :: 0xd9 :: rest)) 1
    have hstep : jpegStep b pre.length = .next (pre.length + 1 + 1) := by
      simp only [jpegStep]
      rw [if_pos (by omega), if_neg (not_not_intro hr0)]
      rw [skipFF_stop (Or.inr (by rw [hr1]; norm_num))]
      rw [if_neg (by omega), if_pos hr1]
    have hwalk : jpegWalk b pre.length = jpegWalk b (pre.length + 1 + 1) := by
      unfold jpegWalk
      exact iter_top_next (jpegStep_next_bound b) hstep
    rw [hwalk]
    have hrec := ih (pre ++ [0xff, 0x00]) hb2
    have h1 : (pre ++ [0xff, 0x00]).length = pre.length + 2 := by simp
    rw [h1] at hrec
    rw [show pre.length + 1 + 1 = pre.length + 2 from by omega]
    rw [hrec]
    congr 1
    simp only [List.length_cons]
    omega

/-- Claim C4: the JPEG end detector requires `FF D8 FF` at the start, then
scans markers: non-`FF` bytes are passed over, runs of padding `FF` bytes are
skipped to reach the marker byte, `0x00` is byte stuffing and is skipped,
`0xD9` ends the scan just past itself, standalone markers advance one byte,
every other marker advances by its big-endian length (minimum 2, failing on a
missing/short length or a segment overrun), and a stuffed `FF 00` run inside
entropy data never prevents reaching EOI nor changes the returned end. -/
theorem findJpegEnd_spec :
    (∀ (bytes : Bytes) (s : Nat),
      ¬(s + 3 ≤ bytes.length ∧ getB bytes s = 0xff ∧ getB bytes (s + 1) = 0xd8 ∧
          getB bytes (s + 2) = 0xff) → findJpegEnd bytes s = none) ∧
    (∀ (bytes : Bytes) (s : Nat),
      s + 3 ≤ bytes.length → getB bytes s = 0xff → getB bytes (s + 1) = 0xd8 →
      getB bytes (s + 2) = 0xff → findJpegEnd bytes s = jpegWalk bytes (s + 2)) ∧
    (∀ (bytes : Bytes) (off : Nat),
      off ≤ skipFF bytes off ∧
        (∀ i, off ≤ i → i < skipFF bytes off → getB bytes i = 0xff) ∧
        (skipFF bytes off < bytes.length → getB bytes (skipFF bytes off) ≠ 0xff)) ∧
    (∀ (bytes : Bytes) (off : Nat), ¬ off + 1 < bytes.length →
      jpegWalk bytes off = none) ∧
    (∀ (bytes : Bytes) (off : Nat), off + 1 < bytes.length → getB bytes off ≠ 0xff →
      jpegWalk bytes off = jpegWalk bytes (off + 1)) ∧
    (∀ (bytes : Bytes) (off m : Nat), off + 1 < bytes.length → getB bytes off = 0xff →
      m = skipFF bytes (off + 1) →
      (bytes.length ≤ m → jpegWalk bytes off = none) ∧
      (m < bytes.length →
        (getB bytes m = 0x00 → jpegWalk bytes off = jpegWalk bytes (m + 1)) ∧
        (getB bytes m = 0xd9 → jpegWalk bytes off = some (m + 1)) ∧
        (getB bytes m ≠ 0x00 → getB bytes m ≠ 0xd9 →
          isStandaloneMarker (getB bytes m) →
          jpegWalk bytes off = jpegWalk bytes (m + 1)) ∧
        (getB bytes m ≠ 0x00 → getB bytes m ≠ 0xd9 →
          ¬ isStandaloneMarker (getB bytes m) →
          (readUint16BE bytes (m + 1) = none → jpegWalk bytes off = none) ∧
          (∀ segLen, readUint16BE bytes (m + 1) = some segLen →
            (segLen < 2 → jpegWalk bytes off = none) ∧
            (2 ≤ segLen → bytes.length < m + 1 + segLen → jpegWalk bytes off = none) ∧
            (2 ≤ segLen → m + 1 + segLen ≤ bytes.length →
              jpegWalk bytes off = jpegWalk bytes (m + 1 + segLen)))))) ∧
    (∀ (e pre rest : Bytes), EntropyRun e →
      jpegWalk (pre ++ (e ++ (0xff :: 0xd9 :: rest))) pre.length =
        some (pre.length + e.length + 2)) := by
  refine ⟨?_, ?_, skipFF_spec, ?_, ?_, ?_, ?_⟩
  · intro bytes s h
    unfold findJpegEnd
    rw [if_neg h]
  · intro bytes s h1 h2 h3 h4
    unfold findJpegEnd
    rw [if_pos ⟨h1, h2, h3, h4⟩]
  · intro bytes off hlt
    have hstep : jpegStep bytes off = .stop none := by
      simp only [jpegStep]
      rw [if_neg hlt]
    unfold jpegWalk
    rw [iter_top_stop hstep]
  · intro bytes off hlt hne
    have hstep : jpegStep bytes off = .next (off + 1) := by
      simp only [jpegStep]
      rw [if_pos hlt, if_pos hne]
    unfold jpegWalk
    exact iter_top_next (jpegStep_next_bound bytes) hstep
  · intro bytes off m hlt hff hm
    subst hm
    refine ⟨?_, ?_⟩
    · intro hge
      have hstep : jpegStep bytes off = .stop none := by
        simp only [jpegStep]
        rw [if_pos hlt, if_neg (not_not_intro hff), if_pos hge]
      unfold jpegWalk
      rw [iter_top_stop hstep]
    · intro hmlt
      refine ⟨?_, ?_, ?_, ?_⟩
      · intro h0
        have hstep : jpegStep bytes off = .next (skipFF bytes (off + 1) + 1) := by
          simp only [jpegStep]
          rw [if_pos hlt, if_neg (not_not_intro hff), if_neg (by omega), if_pos h0]
        unfold jpegWalk
        exact iter_top_next (jpegStep_next_bound bytes) hstep
      · intro h9
        have hstep : jpegStep bytes off = .stop (some (skipFF bytes (off + 1) + 1)) := by
          simp only [jpegStep]
          rw [if_pos hlt, if_neg (not_not_intro hff), if_neg (by omega),
            if_neg (by rw [h9]; norm_num), if_pos h9]
        unfold jpegWalk
        rw [iter_top_stop hstep]
      · intro h0 h9 hsa
        have hsa2 : getB bytes (skipFF bytes (off + 1)) = 0xd8 ∨
            getB bytes (skipFF bytes (off + 1)) = 0x01 ∨
            (0xd0 ≤ getB bytes (skipFF bytes (off + 1)) ∧
              getB bytes (skipFF bytes (off + 1)) ≤ 0xd7) := hsa
        have hstep : jpegStep bytes off = .next (skipFF bytes (off + 1) + 1) := by
          simp only [jpegStep]
          rw [if_pos hlt, if_neg (not_not_intro hff), if_neg (by omega),
            if_neg h0, if_neg h9, if_pos hsa2]
        unfold jpegWalk
        exact iter_top_next (jpegStep_next_bound bytes) hstep
      · intro h0 h9 hsa
        have hsa2 : ¬(getB bytes (skipFF bytes (off + 1)) = 0xd8 ∨
            getB bytes (skipFF bytes (off + 1)) = 0x01 ∨
            (0xd0 ≤ getB bytes (skipFF bytes (off + 1)) ∧
              getB bytes (skipFF bytes (off + 1)) ≤ 0xd7)) := hsa
        constructor
        · intro hread
          have hstep : jpegStep bytes off = .stop none := by
            simp only [jpegStep]
            rw [if_pos hlt, if_neg (not_not_intro hff), if_neg (by omega),
              if_neg h0, if_neg h9, if_neg hsa2, hread]
          unfold jpegWalk
          rw [iter_top_stop hstep]
        · intro segLen hread
          refine ⟨?_, ?_, ?_⟩
          · intro hlow
            have hstep : jpegStep bytes off = .stop none := by
              simp only [jpegStep]
              rw [if_pos hlt, if_neg (not_not_intro hff), if_neg (by omega),
                if_neg h0, if_neg h9, if_neg hsa2, hread]
              simp only
              rw [if_pos hlow]
            unfold jpegWalk
            rw [iter_top_stop hstep]
          · intro hge2 hover
            have hstep : jpegStep bytes off = .stop none := by
              simp only [jpegStep]
              rw [if_pos hlt, if_neg (not_not_intro hff), if_neg (by omega),
                if_neg h0, if_neg h9, if_neg hsa2, hread]
              simp only
              rw [if_neg (by omega), if_pos hover]
            unfold jpegWalk
            rw [iter_top_stop hstep]
          · intro hge2 hfit
            have hstep : jpegStep bytes off =
                .next (skipFF bytes (off + 1) + 1 + segLen) := by
              simp only [jpegStep]
              rw [if_pos hlt, if_neg (not_not_intro hff), if_neg (by omega),
                if_neg h0, if_neg h9, if_neg hsa2, hread]
              simp only
              rw [if_neg (by omega), if_neg (by omega)]
            unfold jpegWalk
            exact iter_top_next (jpegStep_next_bound bytes) hstep
  · intro e pre rest he
    exact jpegWalk_entropy _ rest he pre rfl

/-- Witness for C4: a JPEG with an APP0-style segment, a stuffed `FF 00` in
the entropy data, and EOI. -/
theorem findJpegEnd_spec_witness :
    jpegWalk ([0xff, 0xd8] ++ ([0x12, 0xff, 0x00, 0x34] ++
        (0xff :: 0xd9 :: [0x99]))) ([0xff, 0xd8] : Bytes).length = some 8 ∧
      findJpegEnd [0xff, 0xd8, 0xff, 0xd9] 0 =
        jpegWalk [0xff, 0xd8, 0xff, 0xd9] 2 := by
  constructor
  · have he : EntropyRun [0x12, 0xff, 0x00, 0x34] :=
      .byte (by norm_num) (.stuffed (.byte (by norm_num) .nil))
    exact findJpegEnd_spec.2.2.2.2.2.2 [0x12, 0xff, 0x00, 0x34] [0xff, 0xd8] [0x99] he
  · exact findJpegEnd_spec.2.1 [0xff, 0xd8, 0xff, 0xd9] 0 (by decide) (by decide)
      (by decide) (by decide)

/-! ## C5: GIF extension handling -/

/-- GIF89a, 7-byte logical screen descriptor without a global color table,
then a comment extension with an empty body (`21 FE 00`) and the trailer. -/
def gifExtBuf : Bytes :=
  [0x47, 0x49, 0x46, 0x38, 0x39, 0x61, 1, 0, 1, 0, 0, 0, 0, 0x21, 0xfe, 0x00, 0x3b]

/-- Counterexample to C5 as stated: the body of a non-graphics-control
extension is NOT parsed as the image-data sub-block chain.  On a comment
extension whose body is just the `0x00` terminator, the chain parser stops
after the terminator (offset 16) while the detector's extension-body handling
consumes the terminator as a zero-length first block and then misreads the
trailer byte, failing; `findGifEnd` returns none on a buffer the claimed
parse would accept. -/
theorem gif_extension_chain_counterexample :
    extensionBody gifExtBuf 15 = none ∧ subBlockChain gifExtBuf 15 = some 16 ∧
      findGifEnd gifExtBuf 0 = none := by
  refine ⟨by decide, by decide, by decide⟩

/-- Amended C5: the graphics-control (`0xF9`) branch is as claimed (one
declared sub-block plus a mandatory `0x00` terminator, else failure); for
every other label the first sub-block is consumed unconditionally — even a
zero-length one — and only the remainder is parsed as the zero-terminated
sub-block chain, which agrees with the image-data chain exactly when the
first sub-block size byte exists and is nonzero. -/
theorem findGifEnd_extension_spec :
    (∀ (bytes : Bytes) (off : Nat), off < bytes.length → getB bytes off = 0x21 →
      off + 1 < bytes.length → getB bytes (off + 1) = 0xf9 →
      (bytes.length ≤ off + 2 → gifWalk bytes off = none) ∧
      (off + 2 < bytes.length →
        (bytes.length ≤ off + 3 + getB bytes (off + 2) ∨
            getB bytes (off + 3 + getB bytes (off + 2)) ≠ 0x00 →
          gifWalk bytes off = none) ∧
        (off + 3 + getB bytes (off + 2) < bytes.length →
          getB bytes (off + 3 + getB bytes (off + 2)) = 0x00 →
          gifWalk bytes off = gifWalk bytes (off + 3 + getB bytes (off + 2) + 1)))) ∧
    (∀ (bytes : Bytes) (off : Nat), off < bytes.length → getB bytes off = 0x21 →
      off + 1 < bytes.length → getB bytes (off + 1) ≠ 0xf9 →
      (extensionBody bytes (off + 2) = none → gifWalk bytes off = none) ∧
      (∀ r, extensionBody bytes (off + 2) = some r →
        gifWalk bytes off = gifWalk bytes r)) ∧
    (∀ (bytes : Bytes) (off : Nat),
      (bytes.length ≤ off → extensionBody bytes off = none) ∧
      (off < bytes.length → bytes.length < off + 1 + getB bytes off →
        extensionBody bytes off = none) ∧
      (off < bytes.length → off + 1 + getB bytes off ≤ bytes.length →
        extensionBody bytes off = subBlockChain bytes (off + 1 + getB bytes off))) ∧
    (∀ (bytes : Bytes) (off : Nat), off < bytes.length → getB bytes off ≠ 0 →
      extensionBody bytes off = subBlockChain bytes off) := by
  refine ⟨?_, ?_, ?_, ?_⟩
  · intro bytes off hlt hs21 hlt1 hf9
    have e2 : off + 1 + 1 = off + 2 := rfl
    constructor
    · intro hshort
      have hstep : gifStep bytes off = .stop none := by
        simp only [gifStep]
        rw [if_neg (by omega), if_neg (by rw [hs21]; norm_num),
          if_neg (by rw [hs21]; norm_num), if_pos hs21, if_neg (by omega),
          if_pos hf9, e2, if_pos hshort]
      unfold gifWalk
      rw [iter_top_stop hstep]
    · intro hbs
      have e3 : off + 2 + 1 + getB bytes (off + 2) = off + 3 + getB bytes (off + 2) := by
        omega
      constructor
      · intro hbad
        have hstep : gifStep bytes off = .stop none := by
          simp only [gifStep]
          rw [if_neg (by omega), if_neg (by rw [hs21]; norm_num),
            if_neg (by rw [hs21]; norm_num), if_pos hs21, if_neg (by omega),
            if_pos hf9, e2, if_neg (by omega), e3, if_pos hbad]
        unfold gifWalk
        rw [iter_top_stop hstep]
      · intro hrange hterm
        have hstep : gifStep bytes off =
            .next (off + 3 + getB bytes (off + 2) + 1) := by
          simp only [gifStep]
          rw [if_neg (by omega), if_neg (by rw [hs21]; norm_num),
            if_neg (by rw [hs21]; norm_num), if_pos hs21, if_neg (by omega),
            if_pos hf9, e2, if_neg (by omega), e3,
            if_neg (by rw [hterm]; omega)]
        unfold gifWalk
        exact iter_top_next (gifStep_next_bound bytes) hstep
  · intro bytes off hlt hs21 hlt1 hnf9
    have e2 : off + 1 + 1 = off + 2 := rfl
    constructor
    · intro hext
      have hstep : gifStep bytes off = .stop none := by
        simp only [gifStep]
        rw [if_neg (by omega), if_neg (by rw [hs21]; norm_num),
          if_neg (by rw [hs21]; norm_num), if_pos hs21, if_neg (by omega),
          if_neg hnf9, e2, hext]
      unfold gifWalk
      rw [iter_top_stop hstep]
    · intro r hext
      have hstep : gifStep bytes off = .next r := by
        simp only [gifStep]
        rw [if_neg (by omega), if_neg (by rw [hs21]; norm_num),
          if_neg (by rw [hs21]; norm_num), if_pos hs21, if_neg (by omega),
          if_neg hnf9, e2, hext]
      unfold gifWalk
      exact iter_top_next (gifStep_next_bound bytes) hstep
  · intro bytes off
    refine ⟨?_, ?_, ?_⟩
    · intro hge
      simp only [extensionBody]
      rw [if_pos hge]
    · intro hlt hover
      simp only [extensionBody]
      rw [if_neg (by omega), if_pos hover]
    · intro hlt hfit
      simp only [extensionBody]
      rw [if_neg (by omega), if_neg (by omega)]
  · intro bytes off hlt hnz
    by_cases hover : bytes.length < off + 1 + getB bytes off
    · have h1 : extensionBody bytes off = none := by
        simp only [extensionBody]
        rw [if_neg (by omega), if_pos hover]
      have hstep : chainStep bytes off = .stop none := by
        simp only [chainStep]
        rw [if_neg (by omega), if_neg hnz, if_pos hover]
      rw [h1]
      unfold subBlockChain
      rw [iter_top_stop hstep]
    · have h1 : extensionBody bytes off = subBlockChain bytes (off + 1 + getB bytes off) := by
        simp only [extensionBody]
        rw [if_neg (by omega), if_neg hover]
      have hstep : chainStep bytes off = .next (off + 1 + getB bytes off) := by
        simp only [chainStep]
        rw [if_neg (by omega), if_neg hnz, if_neg hover]
      rw [h1]
      unfold subBlockChain
      exact (iter_top_next (chainStep_next_bound bytes) hstep).symm

/-- Witness for the amended C5 on concrete buffers: a graphics-control
extension parse and a nonzero-first-block generic extension body. -/
theorem findGifEnd_extension_spec_witness :
    gifWalk [0x21, 0xf9, 0x01, 0xaa, 0x00, 0x3b] 0 =
        gifWalk [0x21, 0xf9, 0x01, 0xaa, 0x00, 0x3b] 5 ∧
      extensionBody [0x02, 0x07, 0x08, 0x00] 0 =
        subBlockChain [0x02, 0x07, 0x08, 0x00] 0 := by
  constructor
  · exact ((findGifEnd_extension_spec.1 [0x21, 0xf9, 0x01, 0xaa, 0x00, 0x3b] 0
      (by decide) (by decide) (by decide) (by decide)).2 (by decide)).2
      (by decide) (by decide)
  · exact findGifEnd_extension_spec.2.2.2 [0x02, 0x07, 0x08, 0x00] 0
      (by decide) (by decide)

/-! ## C6: the ZIP end detector -/

/-- An EOCD candidate at `off` that the scan would accept: the signature
matches and the computed end fits inside the buffer. -/
def zipEocdHit (bytes : Bytes) (off : Nat) : Prop :=
  matchesAt bytes off ZIP_EOCD_SIGNATURE = true ∧
    ∃ cl, readUint16LE bytes (off + 20) = some cl ∧ off + 22 + cl ≤ bytes.length

instance (bytes : Bytes) (off : Nat) : Decidable (zipEocdHit bytes off) := by
  unfold zipEocdHit
  have hex : Decidable (∃ cl, readUint16LE bytes (off + 20) = some cl ∧
      off + 22 + cl ≤ bytes.length) := by
    cases h : readUint16LE bytes (off + 20) with
    | none => exact .isFalse (by simp)
    | some cl =>
      exact if hle : off + 22 + cl ≤ bytes.length
        then .isTrue ⟨cl, rfl, hle⟩
        else .isFalse (by
          rintro ⟨cl', hcl', hle'⟩
          rw [Option.some_inj] at hcl'
          exact hle (hcl' ▸ hle'))
  exact @instDecidableAnd _ _ _ hex

theorem zipScan_some_of_hit (bytes : Bytes) :
    ∀ (off start : Nat) (cl : Nat), start ≤ off →
      matchesAt bytes off ZIP_EOCD_SIGNATURE = true →
      readUint16LE bytes (off + 20) = some cl → off + 22 + cl ≤ bytes.length →
      (∀ o, start ≤ o → o < off → ¬ zipEocdHit bytes o) →
      zipScan bytes start = some (off + 22 + cl) := by
  intro off
  have main : ∀ (k start : Nat) (cl : Nat), off - start ≤ k → start ≤ off →
      matchesAt bytes off ZIP_EOCD_SIGNATURE = true →
      readUint16LE bytes (off + 20) = some cl → off + 22 + cl ≤ bytes.length →
      (∀ o, start ≤ o → o < off → ¬ zipEocdHit bytes o) →
      zipScan bytes start = some (off + 22 + cl) := by
    intro k
    induction k with
    | zero =>
      intro start cl hk hle hmatch hread hfit _
      have : start = off := by omega
      subst this
      have hstep : zipStep bytes start = .stop (some (start + 22 + cl)) := by
        simp only [zipStep]
        have h22 : start + 22 ≤ bytes.length := by omega
        rw [if_pos h22, if_pos hmatch, hread]
        simp only
        rw [if_pos hfit]
      unfold zipScan
      rw [iter_top_stop hstep]
    | succ k ih =>
      intro start cl hk hle hmatch hread hfit hnone
      rcases Nat.eq_or_lt_of_le hle with rfl | hlt
      · have hstep : zipStep bytes start = .stop (some (start + 22 + cl)) := by
          simp only [zipStep]
          rw [if_pos (by omega), if_pos hmatch, hread]
          simp only
          rw [if_pos hfit]
        unfold zipScan
        rw [iter_top_stop hstep]
      · have hnothit := hnone start (Nat.le_refl start) hlt
        have h22 : start + 22 ≤ bytes.length := by omega
        have hstep : zipStep bytes start = .next (start + 1) := by
          simp only [zipStep]
          rw [if_pos h22]
          by_cases hm : matchesAt bytes start ZIP_EOCD_SIGNATURE = true
          · rw [if_pos hm]
            cases hr : readUint16LE bytes (start + 20) with
            | none => rfl
            | some cl' =>
              simp only
              rw [if_neg (fun hfits => hnothit ⟨hm, cl', hr, hfits⟩)]
          · rw [if_neg hm]
        have hwalk : zipScan bytes start = zipScan bytes (start + 1) := by
          unfold zipScan
          exact iter_top_next (zipStep_next_bound bytes) hstep
        rw [hwalk]
        exact ih (start + 1) cl (by omega) (by omega) hmatch hread hfit
          (fun o ho1 ho2 => hnone o (by omega) ho2)
  intro start cl hle hmatch hread hfit hnone
  exact main (off - start) start cl (Nat.le_refl _) hle hmatch hread hfit hnone

theorem zipScan_some_exists (bytes : Bytes) :
    ∀ (fuel start e : Nat), iter (zipStep bytes) fuel start = some e →
      ∃ off cl, start ≤ off ∧ matchesAt bytes off ZIP_EOCD_SIGNATURE = true ∧
        readUint16LE bytes (off + 20) = some cl ∧ e = off + 22 + cl ∧
        e ≤ bytes.length ∧ ∀ o, start ≤ o → o < off → ¬ zipEocdHit bytes o := by
  intro fuel
  induction fuel with
  | zero => intro start e h; simp [iter] at h
  | succ fuel ih =>
    intro start e h
    simp only [iter] at h
    cases hstep : zipStep bytes start with
    | stop r =>
      rw [hstep] at h
      subst h
      simp only [zipStep] at hstep
      split at hstep
      · next h22 =>
        split at hstep
        · next hm =>
          cases hr : readUint16LE bytes (start + 20) with
          | none => rw [hr] at hstep; cases hstep
          | some cl =>
            rw [hr] at hstep
            simp only at hstep
            split at hstep
            · next hfit =>
              cases hstep
              exact ⟨start, cl, Nat.le_refl _, hm, hr, rfl, hfit,
                fun o h1 h2 => by omega⟩
            · cases hstep
        · cases hstep
      · cases hstep
    | next o =>
      rw [hstep] at h
      obtain ⟨off, cl, hle, hm, hr, he, hfit, hnone⟩ := ih o e h
      have hnot : ¬ zipEocdHit bytes start := by
        simp only [zipStep] at hstep
        split at hstep
        · next h22 =>
          split at hstep
          · next hm2 =>
            cases hr2 : readUint16LE bytes (start + 20) with
            | none =>
              rintro ⟨_, cl', hcl', _⟩
              rw [hr2] at hcl'
              cases hcl'
            | some cl2 =>
              rw [hr2] at hstep
              simp only at hstep
              split at hstep
              · cases hstep
              · next hnofit =>
                rintro ⟨_, cl', hcl', hfits'⟩
                rw [hr2, Option.some_inj] at hcl'
                subst hcl'
                exact hnofit hfits'
          · next hm2 =>
            rintro ⟨hm3, _⟩
            exact hm2 hm3
        · cases hstep
      have ho : o = start + 1 := by
        simp only [zipStep] at hstep
        split at hstep
        · split at hstep
          · cases hr2 : readUint16LE bytes (start + 20) with
            | none => rw [hr2] at hstep; cases hstep; rfl
            | some cl2 =>
              rw [hr2] at hstep
              simp only at hstep
              split at hstep
              · cases hstep
              · cases hstep; rfl
          · cases hstep; rfl
        · cases hstep
      subst ho
      refine ⟨off, cl, by omega, hm, hr, he, hfit, ?_⟩
      intro o2 h1 h2
      rcases Nat.eq_or_lt_of_le h1 with rfl | h1
      · exact hnot
      · exact hnone o2 h1 h2

/-- The two-EOCD buffer: the first EOCD (offset 4) declares a 255-byte
comment whose computed end (281) exceeds the 48-byte buffer, the second
EOCD (offset 26) fits exactly. -/
def zipCxBuf : Bytes :=
  [0x50, 0x4b, 0x03, 0x04,
   0x50, 0x4b, 0x05, 0x06, 0, 0, 0, 0, 0, 0, 0, 0, 0, 0, 0, 0, 0, 0, 0, 0,
   0xff, 0x00,
   0x50, 0x4b, 0x05, 0x06, 0, 0, 0, 0, 0, 0, 0, 0, 0, 0, 0, 0, 0, 0, 0, 0,
   0x00, 0x00]

/-- Counterexample to C6 as stated: the first EOCD found (offset 4) has a
computed end of 281, beyond the 48-byte buffer, yet `findZipEnd` does not
return null — it keeps scanning and returns 48 from the second EOCD. -/
theorem findZipEnd_counterexample :
    findZipEnd zipCxBuf 0 = some 48 ∧
      findNextPattern zipCxBuf ZIP_EOCD_SIGNATURE 4 = some 4 ∧
      readUint16LE zipCxBuf (4 + 20) = some 255 ∧
      zipCxBuf.length < 4 + 22 + 255 := by
  refine ⟨by decide, by decide, by decide, by decide⟩

/-- Amended C6: after the local-file-header check, the detector scans forward
and returns `off + 22 + commentLength` for the FIRST EOCD candidate whose
computed end fits in the buffer; EOCD candidates whose computed end exceeds
the buffer are skipped, not fatal; it returns null only when no fitting EOCD
exists (or the signature check fails). -/
theorem findZipEnd_spec :
    (∀ (bytes : Bytes) (s : Nat),
      matchesAt bytes s ZIP_LOCAL_FILE_SIGNATURE = false → findZipEnd bytes s = none) ∧
    (∀ (bytes : Bytes) (s e : Nat),
      matchesAt bytes s ZIP_LOCAL_FILE_SIGNATURE = true →
      (findZipEnd bytes s = some e ↔
        ∃ off cl, s + 4 ≤ off ∧ matchesAt bytes off ZIP_EOCD_SIGNATURE = true ∧
          readUint16LE bytes (off + 20) = some cl ∧ e = off + 22 + cl ∧
          e ≤ bytes.length ∧ ∀ o, s + 4 ≤ o → o < off → ¬ zipEocdHit bytes o)) := by
  constructor
  · intro bytes s h
    unfold findZipEnd
    rw [if_neg (by simp [h])]
  · intro bytes s e hsig
    unfold findZipEnd
    rw [if_pos hsig]
    constructor
    · intro h
      have hsl : s + ZIP_LOCAL_FILE_SIGNATURE.length = s + 4 := rfl
      rw [hsl] at h
      exact zipScan_some_exists bytes _ (s + 4) e h
    · rintro ⟨off, cl, hle, hm, hr, rfl, hfit, hnone⟩
      have := zipScan_some_of_hit bytes off (s + 4) cl hle hm hr hfit hnone
      exact this

/-- Witness for the amended C6 on the two-EOCD buffer. -/
theorem findZipEnd_spec_witness :
    findZipEnd zipCxBuf 0 = some 48 ↔
      ∃ off cl, 0 + 4 ≤ off ∧ matchesAt zipCxBuf off ZIP_EOCD_SIGNATURE = true ∧
        readUint16LE zipCxBuf (off + 20) = some cl ∧ 48 = off + 22 + cl ∧
        48 ≤ zipCxBuf.length ∧ ∀ o, 0 + 4 ≤ o → o < off → ¬ zipEocdHit zipCxBuf o :=
  findZipEnd_spec.2 zipCxBuf 0 48 (by decide)

/-! ## C8 and C10: the bit-plane stream extractor -/

theorem getB_set (out : Bytes) (k v i : Nat) :
    getB (out.set k v) i = if i = k ∧ k < out.length then v else getB out i := by
  unfold getB
  rw [List.getD_eq_getElem?_getD, List.getD_eq_getElem?_getD, List.getElem?_set]
  by_cases hik : k = i
  · subst hik
    by_cases hk : k < out.length
    · rw [if_pos rfl, if_pos hk, if_pos ⟨rfl, hk⟩]
      rfl
    · rw [if_pos rfl, if_neg hk, if_neg (by tauto)]
      rw [List.getElem?_eq_none (Nat.le_of_not_lt hk)]
  · rw [if_neg hik, if_neg (by tauto)]

theorem getB_replicate (k i : Nat) : getB (List.replicate k (0 : Nat)) i = 0 := by
  unfold getB
  rw [List.getD_eq_getElem?_getD, List.getElem?_replicate]
  split <;> rfl

theorem setEmittedBit_length (po : BytePackOrder) (out : Bytes) (e : Nat) :
    (setEmittedBit po out e).length = out.length := by
  unfold setEmittedBit
  rw [List.length_set]

theorem planeStep_length (src : Bytes) (B : Nat) (po : BytePackOrder) (ps : Nat)
    (st : Bytes × Nat) (pl : PlaneSpec) :
    (planeStep src B po ps st pl).1.length = st.1.length := by
  unfold planeStep
  split
  · rfl
  · simp only
    split
    · rw [setEmittedBit_length]
    · rfl

theorem processPixel_length (src : Bytes) (pls : List PlaneSpec) (B : Nat)
    (po : BytePackOrder) :
    ∀ (st : Bytes × Nat) (ps : Nat),
      (processPixel src pls B po st ps).1.length = st.1.length := by
  unfold processPixel
  induction pls with
  | nil => intro st ps; rfl
  | cons p pls ih =>
    intro st ps
    rw [List.foldl_cons, ih, planeStep_length]

theorem runPixels_length (src : Bytes) (pls : List PlaneSpec) (B : Nat)
    (po : BytePackOrder) :
    ∀ (starts : List Nat) (st : Bytes × Nat),
      (runPixels src pls B po starts st).1.length = st.1.length := by
  intro starts
  induction starts with
  | nil => intro st; rfl
  | cons ps rest ih =>
    intro st
    simp only [runPixels]
    split
    · rw [processPixel_length]
    · rw [ih, processPixel_length]

theorem planeStep_snd (src : Bytes) (B : Nat) (po : BytePackOrder) (ps : Nat)
    (st : Bytes × Nat) (pl : PlaneSpec) :
    (planeStep src B po ps st pl).2 = if B ≤ st.2 then st.2 else st.2 + 1 := by
  unfold planeStep
  split
  · rfl
  · rfl

theorem processPixel_snd (src : Bytes) (B : Nat) (po : BytePackOrder) (ps : Nat) :
    ∀ (pls : List PlaneSpec) (st : Bytes × Nat), st.2 ≤ B →
      (processPixel src pls B po st ps).2 = min (st.2 + pls.length) B := by
  intro pls
  induction pls with
  | nil =>
    intro st h
    simp only [processPixel, List.foldl_nil, List.length_nil]
    omega
  | cons p pls ih =>
    intro st h
    unfold processPixel at ih ⊢
    rw [List.foldl_cons]
    have h2 := planeStep_snd src B po ps st p
    by_cases hB : B ≤ st.2
    · rw [if_pos hB] at h2
      have := ih (planeStep src B po ps st p) (by omega)
      rw [this, h2]
      simp only [List.length_cons]
      omega
    · rw [if_neg hB] at h2
      have := ih (planeStep src B po ps st p) (by omega)
      rw [this, h2]
      simp only [List.length_cons]
      omega

theorem runPixels_snd (src : Bytes) (pls : List PlaneSpec) (B : Nat)
    (po : BytePackOrder) :
    ∀ (starts : List Nat) (st : Bytes × Nat), st.2 ≤ B →
      (runPixels src pls B po starts st).2 =
        min (st.2 + starts.length * pls.length) B := by
  intro starts
  induction starts with
  | nil =>
    intro st h
    simp only [runPixels, List.length_nil, Nat.zero_mul, Nat.add_zero]
    omega
  | cons ps rest ih =>
    intro st h
    simp only [runPixels]
    have hpp := processPixel_snd src B po ps pls st h
    have hmul : pls.length ≤ (rest.length + 1) * pls.length :=
      Nat.le_mul_of_pos_left pls.length (Nat.succ_pos rest.length)
    split
    · next hstop =>
      rw [hpp] at hstop ⊢
      simp only [List.length_cons]
      rw [Nat.succ_mul]
      omega
    · next hgo =>
      rw [ih _ (by rw [hpp]; omega), hpp]
      simp only [List.length_cons]
      rw [Nat.succ_mul]
      omega

theorem length_flatMap_const {α β : Type} (f : α → List β) (k : Nat) :
    ∀ (l : List α), (∀ a ∈ l, (f a).length = k) →
      (l.flatMap f).length = l.length * k := by
  intro l
  induction l with
  | nil => intro _; simp
  | cons a l ih =>
    intro h
    simp only [List.flatMap_cons, List.length_append, List.length_cons]
    rw [h a (by simp), ih (fun a' ha' => h a' (by simp [ha']))]
    rw [Nat.succ_mul]
    omega

theorem pixelStarts_length (w h : Nat) (ord : ScanOrder) :
    (pixelStarts w h ord).length = w * h := by
  cases ord with
  | rowMajor =>
    unfold pixelStarts
    rw [length_flatMap_const _ w _ (fun y _ => by rw [List.length_map, List.length_range])]
    rw [List.length_range]
    exact Nat.mul_comm h w
  | columnMajor =>
    unfold pixelStarts
    rw [length_flatMap_const _ h _ (fun x _ => by rw [List.length_map, List.length_range])]
    rw [List.length_range]

/-- The output buffer of the extractor has exactly
`min totalBytes (max 0 maxBytes)` bytes. -/
theorem bitStreamState_length (imageData : ImageData) (planes : List PlaneSpec)
    (options : BitExtractionOptions) (maxBytes : Int) :
    (bitStreamState imageData planes options maxBytes).1.length =
      min ((imageData.width * imageData.height *
          (orderSelectedPlanes planes options).length + 7) / 8) (max 0 maxBytes).toNat := by
  simp only [bitStreamState]
  split
  · simp [List.length_replicate]
  · rw [runPixels_length, List.length_replicate]

/-- The extractor emits exactly `min totalBits (outputBytes * 8)` bits. -/
theorem bitStreamState_snd (imageData : ImageData) (planes : List PlaneSpec)
    (options : BitExtractionOptions) (maxBytes : Int) :
    (bitStreamState imageData planes options maxBytes).2 =
      min (imageData.width * imageData.height * (orderSelectedPlanes planes options).length)
        ((bitStreamState imageData planes options maxBytes).1.length * 8) := by
  rw [bitStreamState_length]
  simp only [bitStreamState]
  split
  · next hdeg =>
    rcases hdeg with h | h | h <;> simp [h]
  · next hdeg =>
    push_neg at hdeg
    obtain ⟨hbpp, hbtp, htb⟩ := hdeg
    rw [runPixels_snd _ _ _ _ _ _ (Nat.zero_le _)]
    rw [pixelStarts_length]
    simp only [Nat.zero_add]
    omega

/-- Claim C8: the packed output length is exactly
`min(totalBytes, max(0, maxBytes))` with `totalBits = width*height*bitsPerPixel`
and `totalBytes = ceil(totalBits/8)`, and exactly
`min(totalBits, outputByteCount*8)` bits are emitted, stopping mid-pixel when
necessary — concretely, 3 one-bit planes over 3 pixels with a 1-byte budget
yield the single byte `0xAF`. -/
theorem extractBitPlaneStream_spec :
    (∀ (imageData : ImageData) (planes : List PlaneSpec)
        (options : BitExtractionOptions) (maxBytes : Int),
      (extractBitPlaneStream imageData planes options maxBytes).totalBits =
        imageData.width * imageData.height *
          (extractBitPlaneStream imageData planes options maxBytes).bitsPerPixel ∧
      (extractBitPlaneStream imageData planes options maxBytes).totalBytes =
        ((extractBitPlaneStream imageData planes options maxBytes).totalBits + 7) / 8 ∧
      (extractBitPlaneStream imageData planes options maxBytes).bytes.length =
        min (extractBitPlaneStream imageData planes options maxBytes).totalBytes
          (max 0 maxBytes).toNat ∧
      (bitStreamState imageData planes options maxBytes).2 =
        min (extractBitPlaneStream imageData planes options maxBytes).totalBits
          ((extractBitPlaneStream imageData planes options maxBytes).bytes.length * 8)) ∧
    (extractBitPlaneStream exampleImage examplePlanes exampleOptions 1).bytes = [0xaf] ∧
    (extractBitPlaneStream exampleImage examplePlanes exampleOptions 1).totalBytes = 2 ∧
    (bitStreamState exampleImage examplePlanes exampleOptions 1).2 = 8 := by
  refine ⟨?_, by decide, by decide, by decide⟩
  intro imageData planes options maxBytes
  exact ⟨rfl, rfl, bitStreamState_length imageData planes options maxBytes,
    bitStreamState_snd imageData planes options maxBytes⟩

/-! ### C10: unused high bits of the output are zero -/

/-- Overall emitted-bit index corresponding to the weight-`p` bit of output
byte `i` under the given packing direction. -/
def bitIndexOfSlot (po : BytePackOrder) (i p : Nat) : Nat :=
  match po with
  | .msbFirst => i * 8 + (7 - p)
  | .lsbFirst => i * 8 + p

/-- All bits at overall index `e` or later are clear. -/
def ZeroAbove (po : BytePackOrder) (out : Bytes) (e : Nat) : Prop :=
  ∀ i p, p < 8 → e ≤ bitIndexOfSlot po i p → Nat.testBit (getB out i) p = false

theorem zeroAbove_mono {po : BytePackOrder} {out : Bytes} {e e' : Nat}
    (h : e ≤ e') (hz : ZeroAbove po out e) : ZeroAbove po out e' :=
  fun i p hp hle => hz i p hp (Nat.le_trans h hle)

theorem zeroAbove_replicate (po : BytePackOrder) (k : Nat) :
    ZeroAbove po (List.replicate k 0) 0 := by
  intro i p _ _
  rw [getB_replicate]
  exact Nat.zero_testBit p

theorem zeroAbove_set {po : BytePackOrder} {out : Bytes} {e : Nat}
    (h : ZeroAbove po out e) : ZeroAbove po (setEmittedBit po out e) (e + 1) := by
  intro i p hp hle
  unfold setEmittedBit
  rw [getB_set]
  split
  · next hik =>
    obtain ⟨rfl, _⟩ := hik
    rw [Nat.testBit_lor]
    have h1 : Nat.testBit (getB out (e >>> 3)) p = false := h _ p hp (by omega)
    have h2 : Nat.testBit (1 <<< packBitPos po e) p = false := by
      rw [show (1 : Nat) <<< packBitPos po e = 2 ^ packBitPos po e from by
        rw [Nat.shiftLeft_eq, Nat.one_mul]]
      apply Nat.testBit_two_pow_of_ne
      intro hcontra
      have hdiv : e >>> 3 = e / 8 := Nat.shiftRight_eq_div_pow e 3
      have hmod : e &&& 7 = e % 8 := Nat.and_pow_two_sub_one_eq_mod e 3
      cases po with
      | msbFirst =>
        simp only [packBitPos, bitIndexOfSlot] at hcontra hle
        omega
      | lsbFirst =>
        simp only [packBitPos, bitIndexOfSlot] at hcontra hle
        omega
    rw [h1, h2]
    rfl
  · next hik =>
    exact h i p hp (by omega)

theorem planeStep_zero {src : Bytes} {B : Nat} {po : BytePackOrder} {ps : Nat}
    {st : Bytes × Nat} {pl : PlaneSpec} (h : ZeroAbove po st.1 st.2) :
    ZeroAbove po (planeStep src B po ps st pl).1 (planeStep src B po ps st pl).2 := by
  by_cases hB : B ≤ st.2
  · have heq : planeStep src B po ps st pl = st := by
      simp [planeStep, hB]
    rw [heq]
    exact h
  · by_cases hbit : getB src (ps + pl.channelOffset) &&& pl.bitMask ≠ 0
    · have heq : planeStep src B po ps st pl = (setEmittedBit po st.1 st.2, st.2 + 1) := by
        simp [planeStep, hB, hbit]
      rw [heq]
      exact zeroAbove_set h
    · have heq : planeStep src B po ps st pl = (st.1, st.2 + 1) := by
        simp [planeStep, hB, hbit]
      rw [heq]
      exact zeroAbove_mono (Nat.le_succ _) h

theorem processPixel_zero {src : Bytes} {B : Nat} {po : BytePackOrder} {ps : Nat} :
    ∀ (pls : List PlaneSpec) (st : Bytes × Nat), ZeroAbove po st.1 st.2 →
      ZeroAbove po (processPixel src pls B po st ps).1
        (processPixel src pls B po st ps).2 := by
  intro pls
  induction pls with
  | nil => intro st h; exact h
  | cons p pls ih =>
    intro st h
    unfold processPixel at ih ⊢
    rw [List.foldl_cons]
    exact ih _ (planeStep_zero h)

theorem runPixels_zero {src : Bytes} {pls : List PlaneSpec} {B : Nat}
    {po : BytePackOrder} :
    ∀ (starts : List Nat) (st : Bytes × Nat), ZeroAbove po st.1 st.2 →
      ZeroAbove po (runPixels src pls B po starts st).1
        (runPixels src pls B po starts st).2 := by
  intro starts
  induction starts with
  | nil => intro st h; exact h
  | cons ps rest ih =>
    intro st h
    simp only [runPixels]
    split
    · exact processPixel_zero pls st h
    · exact ih _ (processPixel_zero pls st h)

theorem bitStreamState_zero (imageData : ImageData) (planes : List PlaneSpec)
    (options : BitExtractionOptions) (maxBytes : Int) :
    ZeroAbove options.bytePackOrder (bitStreamState imageData planes options maxBytes).1
      (bitStreamState imageData planes options maxBytes).2 := by
  simp only [bitStreamState]
  split
  · exact zeroAbove_replicate _ _
  · exact runPixels_zero _ _ (zeroAbove_replicate _ _)

/-- Claim C10: every output bit whose overall emitted index (destination byte
index times 8 plus the slot assigned by the packing direction) is at or past
`min(totalBits, outputLength*8)` is zero — unused padding bits of a final
partial byte are guaranteed clear. -/
theorem extractBitPlaneStream_padding_zero (imageData : ImageData)
    (planes : List PlaneSpec) (options : BitExtractionOptions) (maxBytes : Int)
    (i p : Nat) (hp : p < 8)
    (hidx : min (extractBitPlaneStream imageData planes options maxBytes).totalBits
        ((extractBitPlaneStream imageData planes options maxBytes).bytes.length * 8)
      ≤ bitIndexOfSlot options.bytePackOrder i p) :
    Nat.testBit
      (getB (extractBitPlaneStream imageData planes options maxBytes).bytes i) p
      = false := by
  have hz := bitStreamState_zero imageData planes options maxBytes
  have hsnd := bitStreamState_snd imageData planes options maxBytes
  refine hz i p hp ?_
  rw [hsnd]
  exact hidx

/-- Witness for C10: byte 1 of the truncated example output does not exist,
so all of its bits are zero; bit position 0 of a hypothetical byte 1 lies
past the 8 emitted bits. -/
theorem extractBitPlaneStream_padding_zero_witness :
    min (extractBitPlaneStream exampleImage examplePlanes exampleOptions 1).totalBits
        ((extractBitPlaneStream exampleImage examplePlanes exampleOptions 1).bytes.length * 8)
      ≤ bitIndexOfSlot exampleOptions.bytePackOrder 1 0 ∧
    Nat.testBit
      (getB (extractBitPlaneStream exampleImage examplePlanes exampleOptions 1).bytes 1) 0
      = false :=
  ⟨by decide,
   extractBitPlaneStream_padding_zero exampleImage examplePlanes exampleOptions 1 1 0
     (by decide) (by decide)⟩

end Pixelscope
